import Mathlib

/-!
Verification of the compact-trie text search engine core
(`compact_trie.py`, `indexer.py`, `RI.py`).

Words are modelled as `List Char` (Python strings), documents and term
frequencies as `ℕ`, statistic values (`mu`, `sigma`) and scores as `ℚ`
(exact arithmetic standing in for Python floats; every claim settled here
depends only on comparisons and on the branch structure of the arithmetic,
not on rounding).

The trie's child dictionary is modelled as an association list in
insertion order: Python `dict` preserves insertion order, assigning to an
existing key updates it in place, and assigning a fresh key appends.
-/

namespace CompactTrie

/-- `TrieNode` from `compact_trie.py`: `label`, `children` (keyed by the
first character of the child's label), `is_terminal`, `inverted_index`. -/
inductive TrieNode where
  | mk (label : List Char) (children : List (Char × TrieNode))
       (is_terminal : Bool) (inverted_index : List (ℕ × ℕ)) : TrieNode

def TrieNode.label : TrieNode → List Char
  | .mk l _ _ _ => l

def TrieNode.children : TrieNode → List (Char × TrieNode)
  | .mk _ c _ _ => c

def TrieNode.is_terminal : TrieNode → Bool
  | .mk _ _ t _ => t

def TrieNode.inverted_index : TrieNode → List (ℕ × ℕ)
  | .mk _ _ _ i => i

@[simp] theorem TrieNode.label_mk (l c t i) : (TrieNode.mk l c t i).label = l := rfl
@[simp] theorem TrieNode.children_mk (l c t i) : (TrieNode.mk l c t i).children = c := rfl
@[simp] theorem TrieNode.is_terminal_mk (l c t i) : (TrieNode.mk l c t i).is_terminal = t := rfl
@[simp] theorem TrieNode.inverted_index_mk (l c t i) : (TrieNode.mk l c t i).inverted_index = i := rfl

theorem TrieNode.eta (n : TrieNode) :
    TrieNode.mk n.label n.children n.is_terminal n.inverted_index = n := by
  cases n <;> rfl

/-- Python `dict` read `children[char]` / membership `char in children`:
first (and, in well-formed tries, only) binding of the key. -/
def lookupChild (cs : List (Char × TrieNode)) (c : Char) : Option TrieNode :=
  (cs.find? (fun p => p.1 == c)).map (·.2)

/-- Python `dict` write `children[char] = node`: update in place if the
key is bound, append otherwise. -/
def setChild (cs : List (Char × TrieNode)) (c : Char) (n : TrieNode) :
    List (Char × TrieNode) :=
  match cs with
  | [] => [(c, n)]
  | (c', n') :: rest => if c' = c then (c, n) :: rest else (c', n') :: setChild rest c n

/-- `CompactTrie._find_mismatch_point`: length of the longest common
prefix of the word and the label. -/
def find_mismatch_point : List Char → List Char → ℕ
  | a :: as, b :: bs => if a = b then find_mismatch_point as bs + 1 else 0
  | _, _ => 0

/-- The loop body of `CompactTrie.insert`, acting on the current node.
The fuel argument bounds the number of loop iterations; each iteration
of the Python loop either returns or (case C) shortens `remaining_word`
by `mismatch_idx ≥ 1` characters, so `remaining_word.length` iterations
always suffice (see `insert`).  The two `fuel`/empty-label fallthrough
branches that return the node unchanged correspond to states on which
the Python loop never terminates; they are unreachable from tries built
by `insert` (labels are nonempty and child keys match label heads). -/
def insertAux : ℕ → TrieNode → List Char → ℕ → ℕ → TrieNode
  | _, n, [], _, _ => n
  | 0, n, _ :: _, _, _ => n
  | fuel + 1, n, w@(c :: _), doc_id, frequency =>
    match lookupChild n.children c with
    | none =>
        -- Caso 1: no path; insert a fresh terminal leaf labelled with the
        -- whole remaining word.
        TrieNode.mk n.label
          (setChild n.children c (TrieNode.mk w [] true [(doc_id, frequency)]))
          n.is_terminal n.inverted_index
    | some child =>
        let L := child.label
        let m := find_mismatch_point w L
        if m = w.length ∧ m = L.length then
          -- Caso A: exact match; mark terminal and append to the list.
          TrieNode.mk n.label
            (setChild n.children c
              (TrieNode.mk child.label child.children true
                (child.inverted_index ++ [(doc_id, frequency)])))
            n.is_terminal n.inverted_index
        else if m = w.length then
          -- Caso B: the word is a strict prefix of the label; split.
          match hL : L.drop m with
          | [] => n  -- impossible: m < L.length
          | x :: xs =>
            TrieNode.mk n.label
              (setChild n.children c
                (TrieNode.mk w
                  [(x, TrieNode.mk (x :: xs) child.children child.is_terminal
                        child.inverted_index)]
                  true [(doc_id, frequency)]))
              n.is_terminal n.inverted_index
        else if m = L.length then
          -- Caso C: the label is a strict prefix of the word; descend.
          match L with
          | [] => n  -- the Python loop spins forever on an empty label
          | _ :: _ =>
            TrieNode.mk n.label
              (setChild n.children c (insertAux fuel child (w.drop m) doc_id frequency))
              n.is_terminal n.inverted_index
        else if 0 < m then
          -- Caso D: divergence; split into a non-terminal node holding the
          -- common prefix, with the trimmed old child and a new leaf below.
          match hL : L.drop m, hW : w.drop m with
          | x :: xs, y :: ys =>
            TrieNode.mk n.label
              (setChild n.children c
                (TrieNode.mk (L.take m)
                  [(x, TrieNode.mk (x :: xs) child.children child.is_terminal
                        child.inverted_index),
                   (y, TrieNode.mk (y :: ys) [] true [(doc_id, frequency)])]
                  false []))
              n.is_terminal n.inverted_index
          | _, _ => n  -- impossible: m < L.length and m < w.length
        else
          n  -- m = 0 with a nonempty label: the Python loop spins forever

/-- `CompactTrie.insert word doc_id frequency`, starting from the root. -/
def insert (t : TrieNode) (word : List Char) (doc_id frequency : ℕ) : TrieNode :=
  insertAux word.length t word doc_id frequency

/-- The loop of `CompactTrie.find`, with the same fuel discipline as
`insertAux`. -/
def findAux : ℕ → TrieNode → List Char → List (ℕ × ℕ)
  | _, n, [] => if n.is_terminal then n.inverted_index else []
  | 0, _, _ :: _ => []
  | fuel + 1, n, w@(c :: _) =>
    match lookupChild n.children c with
    | none => []
    | some child =>
      let m := find_mismatch_point w child.label
      if m = w.length then
        if m = child.label.length then
          if child.is_terminal then child.inverted_index else []
        else []
      else if m = child.label.length then
        match child.label with
        | [] => []  -- the Python loop spins forever on an empty label
        | _ :: _ => findAux fuel child (w.drop m)
      else []

/-- `CompactTrie.find word`: the inverted list stored for `word`, or `[]`. -/
def find (t : TrieNode) (word : List Char) : List (ℕ × ℕ) :=
  findAux word.length t word

/-- A fresh `CompactTrie()`: root with empty label, no children. -/
def emptyTrie : TrieNode := TrieNode.mk [] [] false []

/-- A trie built by a sequence of `insert` calls on a fresh trie. -/
def buildTrie (ts : List (List Char × ℕ × ℕ)) : TrieNode :=
  ts.foldl (fun t e => insert t e.1 e.2.1 e.2.2) emptyTrie

/-! ### Lemmas about `find_mismatch_point` -/

section Fmp


@[simp] theorem fmp_nil_left (b : List Char) : find_mismatch_point [] b = 0 := by
  cases b <;> rfl

@[simp] theorem fmp_nil_right (a : List Char) : find_mismatch_point a [] = 0 := by
  cases a <;> rfl

@[simp] theorem fmp_cons (a b : Char) (as bs : List Char) :
    find_mismatch_point (a :: as) (b :: bs) = if a = b then find_mismatch_point as bs + 1 else 0 := rfl

theorem fmp_comm (a b : List Char) : find_mismatch_point a b = find_mismatch_point b a := by
  induction a generalizing b with
  | nil => simp
  | cons x xs ih =>
    cases b with
    | nil => simp
    | cons y ys =>
      by_cases h : x = y
      · subst h; simp [ih]
      · rw [fmp_cons, fmp_cons, if_neg h, if_neg (fun hh => h hh.symm)]

theorem fmp_le_left (a b : List Char) : find_mismatch_point a b ≤ a.length := by
  induction a generalizing b with
  | nil => simp
  | cons x xs ih =>
    cases b with
    | nil => simp
    | cons y ys =>
      by_cases h : x = y <;> simp [h, Nat.succ_le_succ, ih]

theorem fmp_le_right (a b : List Char) : find_mismatch_point a b ≤ b.length := by
  rw [fmp_comm]; exact fmp_le_left b a

@[simp] theorem fmp_self (a : List Char) : find_mismatch_point a a = a.length := by
  induction a with
  | nil => simp
  | cons x xs ih => simp [ih]

theorem fmp_take_eq_take (a b : List Char) :
    a.take (find_mismatch_point a b) = b.take (find_mismatch_point a b) := by
  induction a generalizing b with
  | nil => simp
  | cons x xs ih =>
    cases b with
    | nil => simp
    | cons y ys =>
      by_cases h : x = y
      · subst h; simp [ih]
      · simp [h]

theorem fmp_eq_length_left_of_take {a b : List Char} (h : b.take a.length = a) :
    find_mismatch_point a b = a.length := by
  induction a generalizing b with
  | nil => simp
  | cons x xs ih =>
    cases b with
    | nil => simp at h
    | cons y ys =>
      simp only [List.length_cons, List.take_succ_cons, List.cons.injEq] at h
      simp [h.1.symm, ih h.2]

theorem take_of_fmp_eq_length_left {a b : List Char} (h : find_mismatch_point a b = a.length) :
    b.take a.length = a := by
  induction a generalizing b with
  | nil => simp
  | cons x xs ih =>
    cases b with
    | nil => simp at h
    | cons y ys =>
      by_cases hxy : x = y
      · subst hxy
        simp at h
        simp [ih h]
      · simp [hxy] at h

/-- If the mismatch point is the label's length, the word decomposes as
label ++ rest. -/
theorem append_drop_of_fmp_eq_length_right {a b : List Char} (h : find_mismatch_point a b = b.length) :
    a = b ++ a.drop b.length := by
  have h' : find_mismatch_point b a = b.length := by rw [fmp_comm]; exact h
  have := take_of_fmp_eq_length_left h'
  conv_lhs => rw [(a.take_append_drop b.length).symm]
  rw [this]

theorem fmp_eq_lengths_iff {a b : List Char} :
    a = b ↔ find_mismatch_point a b = a.length ∧ find_mismatch_point a b = b.length := by
  constructor
  · rintro rfl; simp
  · rintro ⟨h1, h2⟩
    have := take_of_fmp_eq_length_left h1
    rw [← this, ← h1, h2, List.take_length]

theorem fmp_append_cancel (p a b : List Char) :
    find_mismatch_point (p ++ a) (p ++ b) = p.length + find_mismatch_point a b := by
  induction p with
  | nil => simp
  | cons x xs ih => simp [ih]; ring

theorem fmp_take_right (a b : List Char) (k : ℕ) :
    find_mismatch_point a (b.take k) = min (find_mismatch_point a b) k := by
  induction a generalizing b k with
  | nil => simp
  | cons x xs ih =>
    cases b with
    | nil => simp
    | cons y ys =>
      cases k with
      | zero => simp
      | succ k' =>
        by_cases h : x = y
        · subst h
          simp [ih, Nat.succ_min_succ]
        · simp [h]

/-- At the mismatch point the next characters differ (when both exist). -/
theorem fmp_head_drop_ne {a b : List Char} (ha : find_mismatch_point a b < a.length)
    (hb : find_mismatch_point a b < b.length) :
    (a.drop (find_mismatch_point a b)).head? ≠ (b.drop (find_mismatch_point a b)).head? := by
  induction a generalizing b with
  | nil => simp at ha
  | cons x xs ih =>
    cases b with
    | nil => simp at hb
    | cons y ys =>
      by_cases h : x = y
      · subst h
        have e : find_mismatch_point (x :: xs) (x :: ys) = find_mismatch_point xs ys + 1 := by simp
        rw [e] at ha hb ⊢
        simp only [List.length_cons] at ha hb
        simpa [List.drop_succ_cons] using ih (by omega) (by omega)
      · have e : find_mismatch_point (x :: xs) (y :: ys) = 0 := by simp [h]
        rw [e]
        simpa using h

/-- Mismatch of dropped suffixes, when the prefixes of length `k` agree. -/
theorem fmp_drop_of_take_eq {a b : List Char} {k : ℕ} (hk : a.take k = b.take k)
    (hka : k ≤ a.length) :
    find_mismatch_point a b = k + find_mismatch_point (a.drop k) (b.drop k) := by
  conv_lhs => rw [(a.take_append_drop k).symm, (b.take_append_drop k).symm]
  rw [hk, fmp_append_cancel]
  congr 1
  rw [← hk]
  simpa using hka

end Fmp

/-! ### Lemmas about the child map -/

@[simp] theorem lookupChild_nil (c : Char) : lookupChild [] c = none := rfl

theorem lookupChild_cons (c' : Char) (n' : TrieNode) (rest : List (Char × TrieNode)) (c : Char) :
    lookupChild ((c', n') :: rest) c = if c' = c then some n' else lookupChild rest c := by
  by_cases h : c' = c
  · subst h
    rw [lookupChild, List.find?_cons_of_pos _ (by simp), if_pos rfl]
    rfl
  · rw [lookupChild, List.find?_cons_of_neg _ (by simpa using h), if_neg h]
    rfl

@[simp] theorem lookupChild_setChild_self (cs : List (Char × TrieNode)) (c : Char) (n : TrieNode) :
    lookupChild (setChild cs c n) c = some n := by
  induction cs with
  | nil => simp [setChild, lookupChild_cons]
  | cons p rest ih =>
    obtain ⟨c', n'⟩ := p
    by_cases h : c' = c <;> simp [setChild, h, lookupChild_cons, ih]

theorem lookupChild_setChild_ne (cs : List (Char × TrieNode)) (c c' : Char) (n : TrieNode)
    (h : c' ≠ c) : lookupChild (setChild cs c n) c' = lookupChild cs c' := by
  have h' : ¬c = c' := fun hh => h hh.symm
  induction cs with
  | nil => simp [setChild, lookupChild_cons, h']
  | cons p rest ih =>
    obtain ⟨c₀, n₀⟩ := p
    by_cases h0 : c₀ = c
    · subst h0
      simp [setChild, lookupChild_cons, h']
    · simp [setChild, h0, lookupChild_cons, ih]

theorem setChild_of_lookup_none {cs : List (Char × TrieNode)} {c : Char}
    (h : lookupChild cs c = none) (n : TrieNode) : setChild cs c n = cs ++ [(c, n)] := by
  induction cs with
  | nil => simp [setChild]
  | cons p rest ih =>
    obtain ⟨c₀, n₀⟩ := p
    rw [lookupChild_cons] at h
    by_cases h0 : c₀ = c
    · simp [h0] at h
    · simp only [if_neg h0] at h
      simp [setChild, h0, ih h]

theorem lookupChild_eq_none_iff {cs : List (Char × TrieNode)} {c : Char} :
    lookupChild cs c = none ↔ c ∉ cs.map Prod.fst := by
  induction cs with
  | nil => simp
  | cons p rest ih =>
    obtain ⟨c₀, n₀⟩ := p
    rw [lookupChild_cons]
    by_cases h0 : c₀ = c
    · subst h0; simp
    · have h' : c ≠ c₀ := fun hh => h0 hh.symm
      simp [h0, h', ih]

theorem keys_setChild_of_lookup_none {cs : List (Char × TrieNode)} {c : Char}
    (h : lookupChild cs c = none) (n : TrieNode) :
    (setChild cs c n).map Prod.fst = cs.map Prod.fst ++ [c] := by
  rw [setChild_of_lookup_none h]; simp

theorem keys_setChild_of_lookup_some {cs : List (Char × TrieNode)} {c : Char} {ch : TrieNode}
    (h : lookupChild cs c = some ch) (n : TrieNode) :
    (setChild cs c n).map Prod.fst = cs.map Prod.fst := by
  induction cs with
  | nil => simp [lookupChild] at h
  | cons p rest ih =>
    obtain ⟨c₀, n₀⟩ := p
    rw [lookupChild_cons] at h
    by_cases h0 : c₀ = c
    · simp [setChild, h0]
    · simp only [if_neg h0] at h
      simp [setChild, h0, ih h]

theorem length_setChild_of_lookup_some {cs : List (Char × TrieNode)} {c : Char} {ch : TrieNode}
    (h : lookupChild cs c = some ch) (n : TrieNode) :
    (setChild cs c n).length = cs.length := by
  have := keys_setChild_of_lookup_some h n
  have h1 : ((setChild cs c n).map Prod.fst).length = (cs.map Prod.fst).length := by rw [this]
  simpa using h1

theorem mem_setChild {cs : List (Char × TrieNode)} {c : Char} {n : TrieNode} {p : Char × TrieNode}
    (hp : p ∈ setChild cs c n) : p = (c, n) ∨ p ∈ cs := by
  induction cs with
  | nil => simpa [setChild] using hp
  | cons q rest ih =>
    obtain ⟨c₀, n₀⟩ := q
    by_cases h0 : c₀ = c
    · simp only [setChild, if_pos h0, List.mem_cons] at hp
      rcases hp with h | h
      · exact Or.inl h
      · exact Or.inr (List.mem_cons_of_mem _ h)
    · simp only [setChild, if_neg h0, List.mem_cons] at hp
      rcases hp with h | h
      · exact Or.inr (by simp [h])
      · rcases ih h with h' | h'
        · exact Or.inl h'
        · exact Or.inr (List.mem_cons_of_mem _ h')

/-! ### Well-formedness of tries

These are the structural invariants of §3 of the design (plus two
auxiliary facts the proofs below need: child keys equal the first
characters of the child labels, and non-terminal nodes carry empty
inverted lists). -/

/-- Well-formedness of a non-root node and its subtree. -/
inductive WFNode : TrieNode → Prop where
  | mk : ∀ (lab : List Char) (cs : List (Char × TrieNode)) (term : Bool)
      (inv : List (ℕ × ℕ)),
      lab ≠ [] →
      (term = false → 2 ≤ cs.length ∧ inv = []) →
      (cs.map Prod.fst).Nodup →
      (∀ p ∈ cs, p.2.label.head? = some p.1) →
      (∀ p ∈ cs, WFNode p.2) →
      WFNode (TrieNode.mk lab cs term inv)

/-- Well-formedness of a child map (all the root, whose own label is
empty, requires). -/
def WFChildren (cs : List (Char × TrieNode)) : Prop :=
  (cs.map Prod.fst).Nodup ∧ (∀ p ∈ cs, p.2.label.head? = some p.1) ∧ ∀ p ∈ cs, WFNode p.2

theorem WFNode.label_ne_nil {n : TrieNode} (h : WFNode n) : n.label ≠ [] := by
  cases h; simpa

theorem WFNode.nonterminal {n : TrieNode} (h : WFNode n) (ht : n.is_terminal = false) :
    2 ≤ n.children.length ∧ n.inverted_index = [] := by
  cases h with
  | mk lab cs term inv h1 h2 h3 h4 h5 => exact h2 ht

theorem WFNode.wfChildren {n : TrieNode} (h : WFNode n) : WFChildren n.children := by
  cases h with
  | mk lab cs term inv h1 h2 h3 h4 h5 => exact ⟨h3, h4, h5⟩

theorem WFChildren.nil : WFChildren [] := ⟨by simp, by simp, by simp⟩

theorem WFChildren.tail {q : Char × TrieNode} {cs : List (Char × TrieNode)}
    (h : WFChildren (q :: cs)) : WFChildren cs := by
  obtain ⟨h1, h2, h3⟩ := h
  exact ⟨(List.nodup_cons.mp (by simpa using h1)).2,
    fun p hp => h2 p (List.mem_cons_of_mem q hp),
    fun p hp => h3 p (List.mem_cons_of_mem q hp)⟩

theorem WFChildren.lookup_wf {cs : List (Char × TrieNode)} (h : WFChildren cs)
    {c : Char} {ch : TrieNode} (hc : lookupChild cs c = some ch) :
    WFNode ch ∧ ch.label.head? = some c := by
  induction cs with
  | nil => simp [lookupChild] at hc
  | cons q rest ih =>
    obtain ⟨c₀, n₀⟩ := q
    rw [lookupChild_cons] at hc
    by_cases h0 : c₀ = c
    · subst h0
      rw [if_pos rfl] at hc
      simp only [Option.some.injEq] at hc
      subst hc
      exact ⟨h.2.2 (c₀, n₀) (by simp), h.2.1 (c₀, n₀) (by simp)⟩
    · simp only [if_neg h0] at hc
      exact ih h.tail hc

/-! ### Case equations for `insertAux` and `findAux` -/

theorem insertAux_nil (fuel : ℕ) (n : TrieNode) (d f : ℕ) :
    insertAux fuel n [] d f = n := by
  cases fuel <;> rfl

theorem insertAux_zero (n : TrieNode) (c : Char) (w : List Char) (d f : ℕ) :
    insertAux 0 n (c :: w) d f = n := rfl

theorem insertAux_none {n : TrieNode} {c : Char} {fuel : ℕ} (w : List Char) (d f : ℕ)
    (hlk : lookupChild n.children c = none) :
    insertAux (fuel + 1) n (c :: w) d f =
      TrieNode.mk n.label
        (setChild n.children c (TrieNode.mk (c :: w) [] true [(d, f)]))
        n.is_terminal n.inverted_index := by
  rw [insertAux, hlk]

theorem insertAux_caseA {n ch : TrieNode} {c : Char} {fuel : ℕ} (w : List Char) (d f : ℕ)
    (hlk : lookupChild n.children c = some ch)
    (h1 : find_mismatch_point (c :: w) ch.label = (c :: w).length)
    (h2 : find_mismatch_point (c :: w) ch.label = ch.label.length) :
    insertAux (fuel + 1) n (c :: w) d f =
      TrieNode.mk n.label
        (setChild n.children c
          (TrieNode.mk ch.label ch.children true (ch.inverted_index ++ [(d, f)])))
        n.is_terminal n.inverted_index := by
  rw [insertAux, hlk]
  simp only [if_pos (And.intro h1 h2)]

theorem insertAux_caseB {n ch : TrieNode} {c x : Char} {xs : List Char} {fuel : ℕ}
    (w : List Char) (d f : ℕ)
    (hlk : lookupChild n.children c = some ch)
    (h1 : find_mismatch_point (c :: w) ch.label = (c :: w).length)
    (h2 : find_mismatch_point (c :: w) ch.label ≠ ch.label.length)
    (hdL : ch.label.drop (find_mismatch_point (c :: w) ch.label) = x :: xs) :
    insertAux (fuel + 1) n (c :: w) d f =
      TrieNode.mk n.label
        (setChild n.children c
          (TrieNode.mk (c :: w)
            [(x, TrieNode.mk (x :: xs) ch.children ch.is_terminal ch.inverted_index)]
            true [(d, f)]))
        n.is_terminal n.inverted_index := by
  rw [insertAux, hlk]
  simp only [if_neg (fun hh : _ ∧ _ => h2 hh.2), if_pos h1]
  split
  · next heq => rw [hdL] at heq; exact absurd heq (by simp)
  · next x' xs' heq =>
      rw [hdL] at heq
      obtain ⟨rfl, rfl⟩ : x = x' ∧ xs = xs' := by
        constructor <;> [exact (List.cons.injEq .. ▸ heq).1; exact (List.cons.injEq .. ▸ heq).2]
      rfl

theorem insertAux_caseC {n ch : TrieNode} {c x : Char} {xs : List Char} {fuel : ℕ}
    (w : List Char) (d f : ℕ)
    (hlk : lookupChild n.children c = some ch)
    (h1 : find_mismatch_point (c :: w) ch.label ≠ (c :: w).length)
    (h2 : find_mismatch_point (c :: w) ch.label = ch.label.length)
    (hx : ch.label = x :: xs) :
    insertAux (fuel + 1) n (c :: w) d f =
      TrieNode.mk n.label
        (setChild n.children c
          (insertAux fuel ch ((c :: w).drop (find_mismatch_point (c :: w) ch.label)) d f))
        n.is_terminal n.inverted_index := by
  rw [insertAux, hlk]
  simp only [if_neg (fun hh : _ ∧ _ => h1 hh.1), if_neg h1, if_pos h2]
  split
  · next heq => rw [hx] at heq; exact absurd heq (by simp)
  · rfl

theorem insertAux_caseD {n ch : TrieNode} {c x y : Char} {xs ys : List Char} {fuel : ℕ}
    (w : List Char) (d f : ℕ)
    (hlk : lookupChild n.children c = some ch)
    (h1 : find_mismatch_point (c :: w) ch.label ≠ (c :: w).length)
    (h2 : find_mismatch_point (c :: w) ch.label ≠ ch.label.length)
    (h3 : 0 < find_mismatch_point (c :: w) ch.label)
    (hdL : ch.label.drop (find_mismatch_point (c :: w) ch.label) = x :: xs)
    (hdW : (c :: w).drop (find_mismatch_point (c :: w) ch.label) = y :: ys) :
    insertAux (fuel + 1) n (c :: w) d f =
      TrieNode.mk n.label
        (setChild n.children c
          (TrieNode.mk (ch.label.take (find_mismatch_point (c :: w) ch.label))
            [(x, TrieNode.mk (x :: xs) ch.children ch.is_terminal ch.inverted_index),
             (y, TrieNode.mk (y :: ys) [] true [(d, f)])]
            false []))
        n.is_terminal n.inverted_index := by
  rw [insertAux, hlk]
  simp only [if_neg (fun hh : _ ∧ _ => h1 hh.1), if_neg h1, if_neg h2, if_pos h3]
  split
  · next x' xs' y' ys' heqL heqW =>
      rw [hdL] at heqL
      rw [hdW] at heqW
      obtain ⟨rfl, rfl⟩ : x = x' ∧ xs = xs' := by
        constructor <;> [exact (List.cons.injEq .. ▸ heqL).1; exact (List.cons.injEq .. ▸ heqL).2]
      obtain ⟨rfl, rfl⟩ : y = y' ∧ ys = ys' := by
        constructor <;> [exact (List.cons.injEq .. ▸ heqW).1; exact (List.cons.injEq .. ▸ heqW).2]
      rfl
  · next hne => exact absurd hdW (hne x xs y ys hdL)

/-- Stub branch: label is empty in case C.  The Python loop never
terminates here; unreachable in well-formed tries. -/
theorem insertAux_caseC_nil {n ch : TrieNode} {c : Char} {fuel : ℕ}
    (w : List Char) (d f : ℕ)
    (hlk : lookupChild n.children c = some ch)
    (h1 : find_mismatch_point (c :: w) ch.label ≠ (c :: w).length)
    (h2 : find_mismatch_point (c :: w) ch.label = ch.label.length)
    (hx : ch.label = []) :
    insertAux (fuel + 1) n (c :: w) d f = n := by
  rw [insertAux, hlk]
  simp only [if_neg (fun hh : _ ∧ _ => h1 hh.1), if_neg h1, if_pos h2]
  split
  · rfl
  · next x' xs' heq => rw [hx] at heq; exact absurd heq (by simp)

/-- Stub branch: mismatch point 0 with a nonempty label.  The Python
loop never terminates here; unreachable in well-formed tries. -/
theorem insertAux_caseE {n ch : TrieNode} {c : Char} {fuel : ℕ}
    (w : List Char) (d f : ℕ)
    (hlk : lookupChild n.children c = some ch)
    (h1 : find_mismatch_point (c :: w) ch.label ≠ (c :: w).length)
    (h2 : find_mismatch_point (c :: w) ch.label ≠ ch.label.length)
    (h3 : ¬0 < find_mismatch_point (c :: w) ch.label) :
    insertAux (fuel + 1) n (c :: w) d f = n := by
  rw [insertAux, hlk]
  simp only [if_neg (fun hh : _ ∧ _ => h1 hh.1), if_neg h1, if_neg h2, if_neg h3]

theorem findAux_nil (fuel : ℕ) (n : TrieNode) :
    findAux fuel n [] = if n.is_terminal then n.inverted_index else [] := by
  cases fuel <;> rfl

theorem findAux_zero (n : TrieNode) (c : Char) (w : List Char) :
    findAux 0 n (c :: w) = [] := rfl

theorem findAux_none {n : TrieNode} {c : Char} {fuel : ℕ} (w : List Char)
    (hlk : lookupChild n.children c = none) :
    findAux (fuel + 1) n (c :: w) = [] := by
  rw [findAux, hlk]

theorem findAux_exact {n ch : TrieNode} {c : Char} {fuel : ℕ} (w : List Char)
    (hlk : lookupChild n.children c = some ch)
    (h1 : find_mismatch_point (c :: w) ch.label = (c :: w).length)
    (h2 : find_mismatch_point (c :: w) ch.label = ch.label.length) :
    findAux (fuel + 1) n (c :: w) =
      if ch.is_terminal then ch.inverted_index else [] := by
  rw [findAux, hlk]
  simp only [if_pos h1, if_pos h2]

theorem findAux_word_short {n ch : TrieNode} {c : Char} {fuel : ℕ} (w : List Char)
    (hlk : lookupChild n.children c = some ch)
    (h1 : find_mismatch_point (c :: w) ch.label = (c :: w).length)
    (h2 : find_mismatch_point (c :: w) ch.label ≠ ch.label.length) :
    findAux (fuel + 1) n (c :: w) = [] := by
  rw [findAux, hlk]
  simp only [if_pos h1, if_neg h2]

theorem findAux_descend {n ch : TrieNode} {c x : Char} {xs : List Char} {fuel : ℕ}
    (w : List Char)
    (hlk : lookupChild n.children c = some ch)
    (h1 : find_mismatch_point (c :: w) ch.label ≠ (c :: w).length)
    (h2 : find_mismatch_point (c :: w) ch.label = ch.label.length)
    (hx : ch.label = x :: xs) :
    findAux (fuel + 1) n (c :: w) =
      findAux fuel ch ((c :: w).drop (find_mismatch_point (c :: w) ch.label)) := by
  rw [findAux, hlk]
  simp only [if_neg h1, if_pos h2]
  split
  · next heq => rw [hx] at heq; exact absurd heq (by simp)
  · rfl

theorem findAux_diverge {n ch : TrieNode} {c : Char} {fuel : ℕ} (w : List Char)
    (hlk : lookupChild n.children c = some ch)
    (h1 : find_mismatch_point (c :: w) ch.label ≠ (c :: w).length)
    (h2 : find_mismatch_point (c :: w) ch.label ≠ ch.label.length) :
    findAux (fuel + 1) n (c :: w) = [] := by
  rw [findAux, hlk]
  simp only [if_neg h1, if_neg h2]

/-- Stub branch of `findAux` mirroring `insertAux_caseC_nil`. -/
theorem findAux_descend_nil {n ch : TrieNode} {c : Char} {fuel : ℕ} (w : List Char)
    (hlk : lookupChild n.children c = some ch)
    (h1 : find_mismatch_point (c :: w) ch.label ≠ (c :: w).length)
    (h2 : find_mismatch_point (c :: w) ch.label = ch.label.length)
    (hx : ch.label = []) :
    findAux (fuel + 1) n (c :: w) = [] := by
  rw [findAux, hlk]
  simp only [if_neg h1, if_pos h2]
  split
  · rfl
  · next x' xs' heq => rw [hx] at heq; exact absurd heq (by simp)

theorem drop_cons_of_lt {l : List Char} {m : ℕ} (h : m < l.length) :
    ∃ x xs, l.drop m = x :: xs := by
  have hlen : (l.drop m).length = l.length - m := List.length_drop m l
  cases hdl : l.drop m with
  | nil => rw [hdl] at hlen; simp at hlen; omega
  | cons x xs => exact ⟨x, xs, rfl⟩

/-- `insert` modifies only the current node's children: label, terminal
flag and inverted list of the node it is called on are untouched. -/
theorem insertAux_fields (fuel : ℕ) (n : TrieNode) (w : List Char) (d f : ℕ) :
    (insertAux fuel n w d f).label = n.label ∧
    (insertAux fuel n w d f).is_terminal = n.is_terminal ∧
    (insertAux fuel n w d f).inverted_index = n.inverted_index := by
  cases fuel with
  | zero =>
    cases w with
    | nil => rw [insertAux_nil]; exact ⟨rfl, rfl, rfl⟩
    | cons c w => rw [insertAux_zero]; exact ⟨rfl, rfl, rfl⟩
  | succ fuel =>
    cases w with
    | nil => rw [insertAux_nil]; exact ⟨rfl, rfl, rfl⟩
    | cons c w =>
      cases hlk : lookupChild n.children c with
      | none => rw [insertAux_none w d f hlk]; exact ⟨rfl, rfl, rfl⟩
      | some ch =>
        by_cases h1 : find_mismatch_point (c :: w) ch.label = (c :: w).length
        · by_cases h2 : find_mismatch_point (c :: w) ch.label = ch.label.length
          · rw [insertAux_caseA w d f hlk h1 h2]; exact ⟨rfl, rfl, rfl⟩
          · have hlt : find_mismatch_point (c :: w) ch.label < ch.label.length :=
              lt_of_le_of_ne (fmp_le_right _ _) h2
            obtain ⟨x, xs, hdL⟩ := drop_cons_of_lt hlt
            rw [insertAux_caseB w d f hlk h1 h2 hdL]; exact ⟨rfl, rfl, rfl⟩
        · by_cases h2 : find_mismatch_point (c :: w) ch.label = ch.label.length
          · cases hx : ch.label with
            | nil => rw [insertAux_caseC_nil w d f hlk h1 h2 hx]; exact ⟨rfl, rfl, rfl⟩
            | cons x xs => rw [insertAux_caseC w d f hlk h1 h2 hx]; exact ⟨rfl, rfl, rfl⟩
          · by_cases h3 : 0 < find_mismatch_point (c :: w) ch.label
            · obtain ⟨x, xs, hdL⟩ := drop_cons_of_lt
                (lt_of_le_of_ne (fmp_le_right (c :: w) ch.label) h2)
              obtain ⟨y, ys, hdW⟩ := drop_cons_of_lt
                (lt_of_le_of_ne (fmp_le_left (c :: w) ch.label) h1)
              rw [insertAux_caseD w d f hlk h1 h2 h3 hdL hdW]; exact ⟨rfl, rfl, rfl⟩
            · rw [insertAux_caseE w d f hlk h1 h2 h3]; exact ⟨rfl, rfl, rfl⟩

theorem insertAux_label (fuel : ℕ) (n : TrieNode) (w : List Char) (d f : ℕ) :
    (insertAux fuel n w d f).label = n.label := (insertAux_fields fuel n w d f).1

theorem insertAux_is_terminal (fuel : ℕ) (n : TrieNode) (w : List Char) (d f : ℕ) :
    (insertAux fuel n w d f).is_terminal = n.is_terminal := (insertAux_fields fuel n w d f).2.1

theorem insertAux_inverted_index (fuel : ℕ) (n : TrieNode) (w : List Char) (d f : ℕ) :
    (insertAux fuel n w d f).inverted_index = n.inverted_index := (insertAux_fields fuel n w d f).2.2

/-- `insert` never removes children. -/
theorem insertAux_children_length (fuel : ℕ) (n : TrieNode) (w : List Char) (d f : ℕ) :
    n.children.length ≤ (insertAux fuel n w d f).children.length := by
  cases fuel with
  | zero =>
    cases w with
    | nil => rw [insertAux_nil]
    | cons c w => rw [insertAux_zero]
  | succ fuel =>
    cases w with
    | nil => rw [insertAux_nil]
    | cons c w =>
      cases hlk : lookupChild n.children c with
      | none =>
        rw [insertAux_none w d f hlk, TrieNode.children_mk, setChild_of_lookup_none hlk]
        simp
      | some ch =>
        by_cases h1 : find_mismatch_point (c :: w) ch.label = (c :: w).length
        · by_cases h2 : find_mismatch_point (c :: w) ch.label = ch.label.length
          · rw [insertAux_caseA w d f hlk h1 h2, TrieNode.children_mk,
              length_setChild_of_lookup_some hlk]
          · obtain ⟨x, xs, hdL⟩ := drop_cons_of_lt
              (lt_of_le_of_ne (fmp_le_right (c :: w) ch.label) h2)
            rw [insertAux_caseB w d f hlk h1 h2 hdL, TrieNode.children_mk,
              length_setChild_of_lookup_some hlk]
        · by_cases h2 : find_mismatch_point (c :: w) ch.label = ch.label.length
          · cases hx : ch.label with
            | nil => rw [insertAux_caseC_nil w d f hlk h1 h2 hx]
            | cons x xs =>
              rw [insertAux_caseC w d f hlk h1 h2 hx, TrieNode.children_mk,
                length_setChild_of_lookup_some hlk]
          · by_cases h3 : 0 < find_mismatch_point (c :: w) ch.label
            · obtain ⟨x, xs, hdL⟩ := drop_cons_of_lt
                (lt_of_le_of_ne (fmp_le_right (c :: w) ch.label) h2)
              obtain ⟨y, ys, hdW⟩ := drop_cons_of_lt
                (lt_of_le_of_ne (fmp_le_left (c :: w) ch.label) h1)
              rw [insertAux_caseD w d f hlk h1 h2 h3 hdL hdW, TrieNode.children_mk,
                length_setChild_of_lookup_some hlk]
            · rw [insertAux_caseE w d f hlk h1 h2 h3]

/-! ### Preservation of well-formedness by `insert` -/

theorem WFNode.of_parts {n : TrieNode} (h1 : n.label ≠ [])
    (h2 : n.is_terminal = false → 2 ≤ n.children.length ∧ n.inverted_index = [])
    (h3 : WFChildren n.children) : WFNode n := by
  obtain ⟨lab, cs, term, inv⟩ := n
  exact WFNode.mk lab cs term inv h1 h2 h3.1 h3.2.1 h3.2.2

theorem WFNode.relabel {ch : TrieNode} (h : WFNode ch) {lab : List Char} (hl : lab ≠ []) :
    WFNode (TrieNode.mk lab ch.children ch.is_terminal ch.inverted_index) := by
  cases h with
  | mk lab0 cs term inv h1 h2 h3 h4 h5 => exact WFNode.mk lab cs term inv hl h2 h3 h4 h5

theorem WFChildren.setChild {cs : List (Char × TrieNode)} (h : WFChildren cs)
    {c : Char} {nn : TrieNode} (hl : nn.label.head? = some c) (hn : WFNode nn) :
    WFChildren (setChild cs c nn) := by
  refine ⟨?_, ?_, ?_⟩
  · cases hlk : lookupChild cs c with
    | none =>
      rw [keys_setChild_of_lookup_none hlk]
      rw [List.nodup_append]
      refine ⟨h.1, by simp, ?_⟩
      intro a ha hc
      rw [List.mem_singleton] at hc
      subst hc
      exact (lookupChild_eq_none_iff.mp hlk) ha
    | some ch => rw [keys_setChild_of_lookup_some hlk]; exact h.1
  · intro p hp
    rcases mem_setChild hp with rfl | hp'
    · exact hl
    · exact h.2.1 p hp'
  · intro p hp
    rcases mem_setChild hp with rfl | hp'
    · exact hn
    · exact h.2.2 p hp'

theorem head?_take_pos {l : List Char} {m : ℕ} (hm : 0 < m) :
    (l.take m).head? = l.head? := by
  cases l with
  | nil => simp
  | cons x xs =>
    cases m with
    | zero => omega
    | succ m' => simp

/-- Inserting any word into a node with a well-formed child map leaves
the child map well-formed. -/
theorem insertAux_WFChildren (fuel : ℕ) (n : TrieNode) (w : List Char) (d f : ℕ)
    (hwf : WFChildren n.children) :
    WFChildren (insertAux fuel n w d f).children := by
  induction fuel generalizing n w with
  | zero =>
    cases w with
    | nil => rw [insertAux_nil]; exact hwf
    | cons c w => rw [insertAux_zero]; exact hwf
  | succ fuel ih =>
    cases w with
    | nil => rw [insertAux_nil]; exact hwf
    | cons c w =>
      cases hlk : lookupChild n.children c with
      | none =>
        rw [insertAux_none w d f hlk, TrieNode.children_mk]
        exact hwf.setChild (by simp) (WFNode.mk _ _ _ _ (by simp) (by simp) (by simp)
          (by simp) (by simp))
      | some ch =>
        obtain ⟨hch, hhead⟩ := hwf.lookup_wf hlk
        by_cases h1 : find_mismatch_point (c :: w) ch.label = (c :: w).length
        · by_cases h2 : find_mismatch_point (c :: w) ch.label = ch.label.length
          · -- Caso A
            rw [insertAux_caseA w d f hlk h1 h2, TrieNode.children_mk]
            refine hwf.setChild (by simpa using hhead) (WFNode.of_parts ?_ (by simp) ?_)
            · simpa using hch.label_ne_nil
            · simpa using hch.wfChildren
          · -- Caso B
            obtain ⟨x, xs, hdL⟩ := drop_cons_of_lt
              (lt_of_le_of_ne (fmp_le_right (c :: w) ch.label) h2)
            rw [insertAux_caseB w d f hlk h1 h2 hdL, TrieNode.children_mk]
            refine hwf.setChild (by simp) (WFNode.of_parts (by simp) (by simp) ?_)
            refine ⟨by simp, ?_, ?_⟩
            · intro p hp
              rw [TrieNode.children_mk, List.mem_singleton] at hp
              subst hp
              simp
            · intro p hp
              rw [TrieNode.children_mk, List.mem_singleton] at hp
              subst hp
              exact hch.relabel (by simp)
        · by_cases h2 : find_mismatch_point (c :: w) ch.label = ch.label.length
          · cases hx : ch.label with
            | nil =>
              -- unreachable: the child's label is nonempty
              exact absurd (hx ▸ hhead) (by simp)
            | cons x xs =>
              -- Caso C
              rw [insertAux_caseC w d f hlk h1 h2 hx, TrieNode.children_mk]
              refine hwf.setChild ?_ (WFNode.of_parts ?_ ?_ ?_)
              · rw [insertAux_label]; exact hhead
              · rw [insertAux_label]; exact hch.label_ne_nil
              · rw [insertAux_is_terminal, insertAux_inverted_index]
                intro hterm
                obtain ⟨hlen, hinv⟩ := hch.nonterminal hterm
                exact ⟨le_trans hlen (insertAux_children_length _ _ _ _ _), hinv⟩
              · exact ih ch _ hch.wfChildren
          · by_cases h3 : 0 < find_mismatch_point (c :: w) ch.label
            · -- Caso D
              have hmL : find_mismatch_point (c :: w) ch.label < ch.label.length :=
                lt_of_le_of_ne (fmp_le_right (c :: w) ch.label) h2
              have hmW : find_mismatch_point (c :: w) ch.label < (c :: w).length :=
                lt_of_le_of_ne (fmp_le_left (c :: w) ch.label) h1
              obtain ⟨x, xs, hdL⟩ := drop_cons_of_lt hmL
              obtain ⟨y, ys, hdW⟩ := drop_cons_of_lt hmW
              rw [insertAux_caseD w d f hlk h1 h2 h3 hdL hdW, TrieNode.children_mk]
              have hxy : y ≠ x := by
                have hne := fmp_head_drop_ne hmW hmL
                rw [hdL, hdW] at hne
                simpa using hne
              refine hwf.setChild ?_ (WFNode.of_parts ?_ ?_ ?_)
              · rw [TrieNode.label_mk, head?_take_pos h3]; exact hhead
              · rw [TrieNode.label_mk]
                intro htake
                have hlen0 : (ch.label.take (find_mismatch_point (c :: w) ch.label)).length = 0 := by
                  rw [htake]; rfl
                rw [List.length_take] at hlen0
                omega
              · intro _
                exact ⟨by simp, by simp⟩
              · refine ⟨by simp [Ne.symm hxy], ?_, ?_⟩
                · intro p hp
                  rcases List.mem_cons.mp hp with rfl | hp'
                  · simp
                  · rw [List.mem_singleton] at hp'
                    subst hp'
                    simp
                · intro p hp
                  rcases List.mem_cons.mp hp with rfl | hp'
                  · exact hch.relabel (by simp)
                  · rw [List.mem_singleton] at hp'
                    subst hp'
                    exact WFNode.mk _ _ _ _ (by simp) (by simp) (by simp) (by simp) (by simp)
            · -- unreachable: child key equals first character of its label
              exfalso
              obtain ⟨l0, ls, hl⟩ : ∃ l0 ls, ch.label = l0 :: ls := by
                cases hx : ch.label with
                | nil => exact absurd (hx ▸ hhead) (by simp)
                | cons l0 ls => exact ⟨l0, ls, rfl⟩
              have hc0 : l0 = c := by
                have hh := hl ▸ hhead
                simpa using hh
              rw [hl, hc0] at h3
              simp at h3

/-! ### Helper lemmas for the find/insert interaction -/

theorem take_eq_take_of_le_fmp {a b : List Char} {k : ℕ}
    (h : k ≤ find_mismatch_point a b) : a.take k = b.take k := by
  have hf := fmp_take_eq_take a b
  have h1 : a.take k = (a.take (find_mismatch_point a b)).take k := by
    rw [List.take_take, min_eq_left h]
  have h2 : b.take k = (b.take (find_mismatch_point a b)).take k := by
    rw [List.take_take, min_eq_left h]
  rw [h1, h2, hf]

theorem eq_iff_drop_eq_of_take_eq {a b : List Char} {m : ℕ} (h : a.take m = b.take m) :
    a = b ↔ a.drop m = b.drop m := by
  constructor
  · rintro rfl; rfl
  · intro hd
    rw [← List.take_append_drop m a, ← List.take_append_drop m b, h, hd]

/-- `findAux` at a word whose head has equal lookups in two nodes. -/
theorem findAux_cons_congr {n n' : TrieNode} {c : Char} (w : List Char) (ff : ℕ)
    (h : lookupChild n.children c = lookupChild n'.children c) :
    findAux ff n (c :: w) = findAux ff n' (c :: w) := by
  cases ff with
  | zero => rfl
  | succ k => rw [findAux, findAux, h]

/-- `findAux` on a nonempty word depends only on the node's children. -/
theorem findAux_eq_of_children_eq {n n' : TrieNode} (h : n.children = n'.children)
    {w : List Char} (hw : w ≠ []) (ff : ℕ) : findAux ff n w = findAux ff n' w := by
  cases w with
  | nil => exact absurd rfl hw
  | cons c w => exact findAux_cons_congr w ff (by rw [h])

/-- The fuel of `findAux` is irrelevant as long as it covers the word
length (each descent consumes at least one character). -/
theorem findAux_fuel (f1 : ℕ) (n : TrieNode) (w : List Char) (f2 : ℕ)
    (h1 : w.length ≤ f1) (h2 : w.length ≤ f2) :
    findAux f1 n w = findAux f2 n w := by
  induction f1 generalizing n w f2 with
  | zero =>
    cases w with
    | nil => rw [findAux_nil, findAux_nil]
    | cons c w => simp at h1
  | succ k ih =>
    cases w with
    | nil => rw [findAux_nil, findAux_nil]
    | cons c w =>
      cases f2 with
      | zero => simp at h2
      | succ k2 =>
        cases hlk : lookupChild n.children c with
        | none => rw [findAux_none w hlk, findAux_none w hlk]
        | some ch =>
          by_cases hA : find_mismatch_point (c :: w) ch.label = (c :: w).length
          · by_cases hB : find_mismatch_point (c :: w) ch.label = ch.label.length
            · rw [findAux_exact w hlk hA hB, findAux_exact w hlk hA hB]
            · rw [findAux_word_short w hlk hA hB, findAux_word_short w hlk hA hB]
          · by_cases hB : find_mismatch_point (c :: w) ch.label = ch.label.length
            · cases hx : ch.label with
              | nil =>
                rw [findAux_descend_nil w hlk hA hB hx, findAux_descend_nil w hlk hA hB hx]
              | cons x xs =>
                rw [findAux_descend w hlk hA hB hx, findAux_descend w hlk hA hB hx]
                have hm1 : 1 ≤ find_mismatch_point (c :: w) ch.label := by
                  rw [hB, hx]; simp
                have hlen : ((c :: w).drop (find_mismatch_point (c :: w) ch.label)).length =
                    (c :: w).length - find_mismatch_point (c :: w) ch.label :=
                  List.length_drop _ _
                apply ih
                · rw [hlen]; simp at h1 ⊢; omega
                · rw [hlen]; simp at h2 ⊢; omega
            · rw [findAux_diverge w hlk hA hB, findAux_diverge w hlk hA hB]

/-- Looking below a word-head other than the inserted word's head is
unaffected by the insertion. -/
theorem insertAux_lookup_ne (fi : ℕ) (n : TrieNode) (c : Char) (w₁ : List Char) (d f : ℕ)
    {c' : Char} (hcc : c' ≠ c) :
    lookupChild (insertAux fi n (c :: w₁) d f).children c' = lookupChild n.children c' := by
  cases fi with
  | zero => rw [insertAux_zero]
  | succ fi =>
    cases hlk : lookupChild n.children c with
    | none =>
      rw [insertAux_none w₁ d f hlk, TrieNode.children_mk, lookupChild_setChild_ne _ _ _ _ hcc]
    | some ch =>
      by_cases h1 : find_mismatch_point (c :: w₁) ch.label = (c :: w₁).length
      · by_cases h2 : find_mismatch_point (c :: w₁) ch.label = ch.label.length
        · rw [insertAux_caseA w₁ d f hlk h1 h2, TrieNode.children_mk,
            lookupChild_setChild_ne _ _ _ _ hcc]
        · obtain ⟨x, xs, hdL⟩ := drop_cons_of_lt
            (lt_of_le_of_ne (fmp_le_right (c :: w₁) ch.label) h2)
          rw [insertAux_caseB w₁ d f hlk h1 h2 hdL, TrieNode.children_mk,
            lookupChild_setChild_ne _ _ _ _ hcc]
      · by_cases h2 : find_mismatch_point (c :: w₁) ch.label = ch.label.length
        · cases hx : ch.label with
          | nil => rw [insertAux_caseC_nil w₁ d f hlk h1 h2 hx]
          | cons x xs =>
            rw [insertAux_caseC w₁ d f hlk h1 h2 hx, TrieNode.children_mk,
              lookupChild_setChild_ne _ _ _ _ hcc]
        · by_cases h3 : 0 < find_mismatch_point (c :: w₁) ch.label
          · obtain ⟨x, xs, hdL⟩ := drop_cons_of_lt
              (lt_of_le_of_ne (fmp_le_right (c :: w₁) ch.label) h2)
            obtain ⟨y, ys, hdW⟩ := drop_cons_of_lt
              (lt_of_le_of_ne (fmp_le_left (c :: w₁) ch.label) h1)
            rw [insertAux_caseD w₁ d f hlk h1 h2 h3 hdL hdW, TrieNode.children_mk,
              lookupChild_setChild_ne _ _ _ _ hcc]
          · rw [insertAux_caseE w₁ d f hlk h1 h2 h3]

/-- Finding below a terminal leaf child: the word matches the leaf label
exactly or the search fails. -/
theorem findAux_leaf_child {par : TrieNode} {c : Char} {lab : List Char}
    {inv : List (ℕ × ℕ)} {k : ℕ} (w₁' : List Char)
    (hlk : lookupChild par.children c = some (TrieNode.mk lab [] true inv)) :
    findAux (k + 1) par (c :: w₁') = if c :: w₁' = lab then inv else [] := by
  by_cases hA : find_mismatch_point (c :: w₁') lab = (c :: w₁').length
  · by_cases hB : find_mismatch_point (c :: w₁') lab = lab.length
    · have heq : c :: w₁' = lab := fmp_eq_lengths_iff.mpr ⟨hA, hB⟩
      rw [findAux_exact w₁' hlk hA hB, if_pos heq]
      rfl
    · rw [findAux_word_short w₁' hlk hA hB, if_neg]
      intro heq
      exact hB (heq ▸ hA)
  · by_cases hB : find_mismatch_point (c :: w₁') lab = lab.length
    · cases hxlab : lab with
      | nil =>
        rw [findAux_descend_nil w₁' hlk hA hB hxlab, if_neg (by simp [hxlab])]
      | cons x xs =>
        rw [findAux_descend w₁' hlk hA hB hxlab]
        simp only [TrieNode.label_mk]
        have hlt : find_mismatch_point (c :: w₁') lab < (c :: w₁').length :=
          lt_of_le_of_ne (fmp_le_left _ _) hA
        obtain ⟨v0, vrest, hv⟩ := drop_cons_of_lt hlt
        rw [hv]
        have hres : findAux k (TrieNode.mk lab [] true inv) (v0 :: vrest) = [] := by
          cases k with
          | zero => exact findAux_zero _ _ _
          | succ k0 => exact findAux_none vrest (by rfl)
        rw [hres, if_neg]
        intro heq
        exact hA (by rw [heq, ← hxlab, fmp_self])
    · rw [findAux_diverge w₁' hlk hA hB, if_neg]
      intro heq
      exact hA (by rw [heq, fmp_self])

/-- Bridge: searching below the trimmed copy of a child (label cut by the
first `m` characters) agrees with the original search from the parent,
for query words agreeing with the child label on those `m` characters. -/
theorem findAux_trimmed_bridge {n ch par₂ : TrieNode} {c x : Char}
    {xs vrest w₁' : List Char} {m k₀ : ℕ}
    (hlk : lookupChild n.children c = some ch)
    (hm : m < ch.label.length) (hm0 : 0 < m)
    (hdL : ch.label.drop m = x :: xs)
    (hlk₂ : lookupChild par₂.children x =
      some (TrieNode.mk (x :: xs) ch.children ch.is_terminal ch.inverted_index))
    (htake : (c :: w₁').take m = ch.label.take m)
    (hv : (c :: w₁').drop m = x :: vrest)
    (hk : (c :: w₁').length ≤ k₀ + 2) :
    findAux (k₀ + 1) par₂ (x :: vrest) = findAux (k₀ + 2) n (c :: w₁') := by
  have hmw : m < (c :: w₁').length := by
    by_contra hcon
    rw [List.drop_eq_nil_of_le (by omega)] at hv
    exact absurd hv (by simp)
  have hg : find_mismatch_point (c :: w₁') ch.label =
      m + find_mismatch_point (x :: vrest) (x :: xs) := by
    rw [fmp_drop_of_take_eq htake (by omega), hv, hdL]
  have hlenv : (vrest.length + 1) = (c :: w₁').length - m := by
    have := List.length_drop m (c :: w₁')
    rw [hv] at this
    simpa using this
  have hlenxs : (xs.length + 1) = ch.label.length - m := by
    have := List.length_drop m ch.label
    rw [hdL] at this
    simpa using this
  by_cases hA : find_mismatch_point (x :: vrest) (x :: xs) = (x :: vrest).length
  · by_cases hB : find_mismatch_point (x :: vrest) (x :: xs) = (x :: xs).length
    · -- the query word equals the full child label
      have hvl : x :: vrest = x :: xs := fmp_eq_lengths_iff.mpr ⟨hA, hB⟩
      have hout1 : find_mismatch_point (c :: w₁') ch.label = (c :: w₁').length := by
        rw [hg, hA]
        simp only [List.length_cons] at hlenv ⊢
        omega
      have hout2 : find_mismatch_point (c :: w₁') ch.label = ch.label.length := by
        rw [hg, hB]
        simp only [List.length_cons] at hlenxs ⊢
        omega
      rw [findAux_exact vrest hlk₂ (by simpa using hA) (by simpa using hB),
        findAux_exact w₁' hlk hout1 hout2]
      simp only [TrieNode.is_terminal_mk, TrieNode.inverted_index_mk]
    · -- the query word ends inside the trimmed label
      have hout1 : find_mismatch_point (c :: w₁') ch.label = (c :: w₁').length := by
        rw [hg, hA]
        simp only [List.length_cons] at hlenv ⊢
        omega
      have hout2 : find_mismatch_point (c :: w₁') ch.label ≠ ch.label.length := by
        rw [hg]
        simp only [List.length_cons] at hlenxs ⊢
        intro hcon
        exact hB (by simp only [List.length_cons]; omega)
      rw [findAux_word_short vrest hlk₂ (by simpa using hA) (by simpa using hB),
        findAux_word_short w₁' hlk hout1 hout2]
  · by_cases hB : find_mismatch_point (x :: vrest) (x :: xs) = (x :: xs).length
    · -- descend below the trimmed label on both sides
      have hout1 : find_mismatch_point (c :: w₁') ch.label ≠ (c :: w₁').length := by
        rw [hg]
        simp only [List.length_cons] at hlenv ⊢
        intro hcon
        exact hA (by simp only [List.length_cons]; omega)
      have hout2 : find_mismatch_point (c :: w₁') ch.label = ch.label.length := by
        rw [hg, hB]
        simp only [List.length_cons] at hlenxs ⊢
        omega
      obtain ⟨l0, ls, hL⟩ : ∃ l0 ls, ch.label = l0 :: ls := by
        cases hLc : ch.label with
        | nil => rw [hLc] at hm; simp at hm
        | cons l0 ls => exact ⟨l0, ls, rfl⟩
      rw [findAux_descend vrest hlk₂ (by simpa using hA) (by simpa using hB) rfl,
        findAux_descend w₁' hlk hout1 hout2 hL]
      simp only [TrieNode.label_mk]
      have hdrop : (x :: vrest).drop (find_mismatch_point (x :: vrest) (x :: xs)) =
          (c :: w₁').drop (find_mismatch_point (c :: w₁') ch.label) := by
        rw [hg, ← hv, List.drop_drop, Nat.add_comm]
      rw [hdrop]
      have hrlt : find_mismatch_point (x :: vrest) (x :: xs) < (x :: vrest).length :=
        lt_of_le_of_ne (fmp_le_left _ _) hA
      have hne : (c :: w₁').drop (find_mismatch_point (c :: w₁') ch.label) ≠ [] := by
        rw [← hdrop]
        obtain ⟨z, zs, hz⟩ := drop_cons_of_lt hrlt
        rw [hz]
        simp
      rw [findAux_eq_of_children_eq
        (show (TrieNode.mk (x :: xs) ch.children ch.is_terminal ch.inverted_index).children =
          ch.children from rfl) hne k₀]
      apply findAux_fuel
      · have := List.length_drop (find_mismatch_point (c :: w₁') ch.label) (c :: w₁')
        rw [this, hg]
        simp only [List.length_cons] at hk ⊢
        omega
      · have := List.length_drop (find_mismatch_point (c :: w₁') ch.label) (c :: w₁')
        rw [this, hg]
        simp only [List.length_cons] at hk ⊢
        omega
    · -- divergence inside the trimmed label on both sides
      have hout1 : find_mismatch_point (c :: w₁') ch.label ≠ (c :: w₁').length := by
        rw [hg]
        simp only [List.length_cons] at hlenv ⊢
        intro hcon
        exact hA (by simp only [List.length_cons]; omega)
      have hout2 : find_mismatch_point (c :: w₁') ch.label ≠ ch.label.length := by
        rw [hg]
        simp only [List.length_cons] at hlenxs ⊢
        intro hcon
        exact hB (by simp only [List.length_cons]; omega)
      rw [findAux_diverge vrest hlk₂ (by simpa using hA) (by simpa using hB),
        findAux_diverge w₁' hlk hout1 hout2]

theorem label_cons_of_head {ch : TrieNode} {c : Char} (hhead : ch.label.head? = some c) :
    ch.label = c :: ch.label.tail := by
  cases hL : ch.label with
  | nil => rw [hL] at hhead; simp at hhead
  | cons l0 ls =>
    rw [hL] at hhead
    simp only [List.head?_cons, Option.some.injEq] at hhead
    rw [hhead]
    rfl

/-- The central lemma: after `insert word`, `find` returns the old result
with `(doc_id, frequency)` appended exactly when the query word is the
inserted word, and is unchanged on every other query word. -/
theorem findAux_insertAux (fi : ℕ) (n : TrieNode) (w : List Char) (d f : ℕ)
    (ff : ℕ) (w' : List Char)
    (hfi : w.length ≤ fi) (hw : w ≠ [])
    (hwf : WFChildren n.children)
    (hff : w'.length ≤ ff) :
    findAux ff (insertAux fi n w d f) w' =
      findAux ff n w' ++ if w' = w then [(d, f)] else [] := by
  induction fi generalizing n w ff w' with
  | zero =>
    cases w with
    | nil => exact absurd rfl hw
    | cons c w₁ => simp at hfi
  | succ fi ih =>
    cases w with
    | nil => exact absurd rfl hw
    | cons c w₁ =>
      cases w' with
      | nil =>
        rw [findAux_nil, findAux_nil, insertAux_is_terminal, insertAux_inverted_index,
          if_neg (show ¬(([] : List Char) = c :: w₁) by simp), List.append_nil]
      | cons c' w₁' =>
        cases ff with
        | zero => simp at hff
        | succ k =>
          by_cases hcc : c' = c
          case neg =>
            have hlkne := insertAux_lookup_ne (fi + 1) n c w₁ d f hcc
            rw [findAux_cons_congr w₁' (k + 1) hlkne, if_neg (by simp [hcc]),
              List.append_nil]
          case pos =>
            subst c'
            cases hlk : lookupChild n.children c with
            | none =>
              have hlk' : lookupChild (insertAux (fi + 1) n (c :: w₁) d f).children c =
                  some (TrieNode.mk (c :: w₁) [] true [(d, f)]) := by
                rw [insertAux_none w₁ d f hlk, TrieNode.children_mk, lookupChild_setChild_self]
              rw [findAux_leaf_child w₁' hlk', findAux_none w₁' hlk, List.nil_append]
            | some ch =>
              obtain ⟨hch, hhead⟩ := hwf.lookup_wf hlk
              have hLcons : ch.label = c :: ch.label.tail := label_cons_of_head hhead
              by_cases h1 : find_mismatch_point (c :: w₁) ch.label = (c :: w₁).length
              · by_cases h2 : find_mismatch_point (c :: w₁) ch.label = ch.label.length
                · -- Caso A: exact match; the child is terminalised and appended to
                  have hUL : c :: w₁ = ch.label := fmp_eq_lengths_iff.mpr ⟨h1, h2⟩
                  have hlk' : lookupChild (insertAux (fi + 1) n (c :: w₁) d f).children c =
                      some (TrieNode.mk ch.label ch.children true
                        (ch.inverted_index ++ [(d, f)])) := by
                    rw [insertAux_caseA w₁ d f hlk h1 h2, TrieNode.children_mk,
                      lookupChild_setChild_self]
                  by_cases g1 : find_mismatch_point (c :: w₁') ch.label = (c :: w₁').length
                  · by_cases g2 : find_mismatch_point (c :: w₁') ch.label = ch.label.length
                    · have hU' : c :: w₁' = ch.label := fmp_eq_lengths_iff.mpr ⟨g1, g2⟩
                      rw [findAux_exact w₁' hlk' (by simpa using g1) (by simpa using g2),
                        findAux_exact w₁' hlk g1 g2]
                      simp only [TrieNode.is_terminal_mk, TrieNode.inverted_index_mk,
                        eq_self_iff_true, if_true]
                      rw [if_pos (show c :: w₁' = c :: w₁ by rw [hU', hUL])]
                      by_cases ht : ch.is_terminal = true
                      · rw [if_pos ht]
                      · rw [if_neg ht, (hch.nonterminal (by simpa using ht)).2]
                    · rw [findAux_word_short w₁' hlk' (by simpa using g1) (by simpa using g2),
                        findAux_word_short w₁' hlk g1 g2, if_neg, List.append_nil]
                      intro heq
                      exact g2 (by rw [heq, hUL, fmp_self])
                  · by_cases g2 : find_mismatch_point (c :: w₁') ch.label = ch.label.length
                    · rw [findAux_descend w₁' hlk' (by simpa using g1) (by simpa using g2)
                        (by simpa using hLcons),
                        findAux_descend w₁' hlk g1 g2 hLcons]
                      simp only [TrieNode.label_mk]
                      have hglt : find_mismatch_point (c :: w₁') ch.label < (c :: w₁').length :=
                        lt_of_le_of_ne (fmp_le_left _ _) g1
                      have hne : (c :: w₁').drop (find_mismatch_point (c :: w₁') ch.label) ≠ [] := by
                        obtain ⟨z, zs, hz⟩ := drop_cons_of_lt hglt
                        rw [hz]
                        simp
                      rw [findAux_eq_of_children_eq
                        (show (TrieNode.mk ch.label ch.children true
                            (ch.inverted_index ++ [(d, f)])).children = ch.children from rfl)
                        hne k, if_neg, List.append_nil]
                      intro heq
                      exact g1 (by rw [heq, hUL, fmp_self])
                    · rw [findAux_diverge w₁' hlk' (by simpa using g1) (by simpa using g2),
                        findAux_diverge w₁' hlk g1 g2, if_neg, List.append_nil]
                      intro heq
                      exact g2 (by rw [heq, hUL, fmp_self])
                · -- Caso B: the inserted word is a strict prefix of the child label
                  have hmlt : find_mismatch_point (c :: w₁) ch.label < ch.label.length :=
                    lt_of_le_of_ne (fmp_le_right _ _) h2
                  obtain ⟨x, xs, hdL⟩ := drop_cons_of_lt hmlt
                  have hlk' : lookupChild (insertAux (fi + 1) n (c :: w₁) d f).children c =
                      some (TrieNode.mk (c :: w₁)
                        [(x, TrieNode.mk (x :: xs) ch.children ch.is_terminal
                          ch.inverted_index)] true [(d, f)]) := by
                    rw [insertAux_caseB w₁ d f hlk h1 h2 hdL, TrieNode.children_mk,
                      lookupChild_setChild_self]
                  have hUtake : ch.label.take (c :: w₁).length = c :: w₁ :=
                    take_of_fmp_eq_length_left h1
                  have hdL' : ch.label.drop (c :: w₁).length = x :: xs := by rw [← h1, hdL]
                  have hmlt' : (c :: w₁).length < ch.label.length := by rw [← h1]; exact hmlt
                  have hL1 : (c :: w₁).length ≤ ch.label.length := le_of_lt hmlt'
                  have hmin : find_mismatch_point (c :: w₁') (c :: w₁) =
                      min (find_mismatch_point (c :: w₁') ch.label) ((c :: w₁).length) := by
                    conv_lhs => rw [← hUtake]
                    rw [fmp_take_right]
                  by_cases g1 : find_mismatch_point (c :: w₁') (c :: w₁) = (c :: w₁').length
                  · by_cases g2 : find_mismatch_point (c :: w₁') (c :: w₁) = (c :: w₁).length
                    · -- the query word is exactly the inserted word
                      have hU' : c :: w₁' = c :: w₁ := fmp_eq_lengths_iff.mpr ⟨g1, g2⟩
                      have hold1 : find_mismatch_point (c :: w₁') ch.label =
                          (c :: w₁').length := by
                        rw [hU', h1]
                      have hold2 : find_mismatch_point (c :: w₁') ch.label ≠
                          ch.label.length := by
                        rw [hU']
                        exact h2
                      rw [findAux_exact w₁' hlk' (by simpa using g1) (by simpa using g2),
                        findAux_word_short w₁' hlk hold1 hold2, if_pos hU', List.nil_append]
                      rfl
                    · -- the query word ends inside the inserted word
                      have hle := fmp_le_right (c :: w₁') (c :: w₁)
                      have hlt : (c :: w₁').length < (c :: w₁).length := by omega
                      have hg : find_mismatch_point (c :: w₁') ch.label =
                          (c :: w₁').length := by omega
                      have hgne : find_mismatch_point (c :: w₁') ch.label ≠
                          ch.label.length := by omega
                      rw [findAux_word_short w₁' hlk' (by simpa using g1) (by simpa using g2),
                        findAux_word_short w₁' hlk hg hgne, if_neg, List.append_nil]
                      intro heq
                      exact g2 (by rw [heq, fmp_self])
                  · by_cases g2 : find_mismatch_point (c :: w₁') (c :: w₁) = (c :: w₁).length
                    · -- descend below the inserted word
                      have hle := fmp_le_left (c :: w₁') (c :: w₁)
                      have hlt : (c :: w₁).length < (c :: w₁').length := by omega
                      have hutake : (c :: w₁').take (c :: w₁).length = c :: w₁ := by
                        rw [take_eq_take_of_le_fmp (le_of_eq g2.symm), List.take_length]
                      have htake' : (c :: w₁').take (c :: w₁).length =
                          ch.label.take (c :: w₁).length := by
                        rw [hutake, hUtake]
                      obtain ⟨v0, vrest, hv⟩ := drop_cons_of_lt hlt
                      cases k with
                      | zero =>
                        exfalso
                        have : 1 ≤ (c :: w₁).length := by simp
                        omega
                      | succ k₀ =>
                        rw [findAux_descend w₁' hlk' (by simpa using g1) (by simpa using g2)
                          (rfl : (TrieNode.mk (c :: w₁)
                            [(x, TrieNode.mk (x :: xs) ch.children ch.is_terminal
                              ch.inverted_index)] true [(d, f)]).label = c :: w₁)]
                        simp only [TrieNode.label_mk]
                        rw [g2, hv]
                        by_cases hvx : v0 = x
                        · subst hvx
                          rw [findAux_trimmed_bridge hlk hmlt' (by simp) hdL'
                            (by rw [TrieNode.children_mk, lookupChild_cons, if_pos rfl])
                            htake' hv (by omega), if_neg, List.append_nil]
                          intro heq
                          rw [heq, List.drop_length] at hv
                          exact absurd hv (by simp)
                        · have hlkin : lookupChild
                              (TrieNode.mk (c :: w₁)
                                [(x, TrieNode.mk (x :: xs) ch.children ch.is_terminal
                                  ch.inverted_index)] true [(d, f)]).children v0 = none := by
                            rw [TrieNode.children_mk, lookupChild_cons,
                              if_neg (fun hh => hvx hh.symm)]
                            rfl
                          rw [findAux_none vrest hlkin]
                          have hr0 : find_mismatch_point (v0 :: vrest) (x :: xs) = 0 := by
                            rw [fmp_cons, if_neg hvx]
                          have hgdec : find_mismatch_point (c :: w₁') ch.label =
                              (c :: w₁).length +
                                find_mismatch_point (v0 :: vrest) (x :: xs) := by
                            rw [fmp_drop_of_take_eq htake' (by omega), hv, hdL']
                          rw [findAux_diverge w₁' hlk (by omega) (by omega), if_neg,
                            List.append_nil]
                          intro heq
                          rw [heq, List.drop_length] at hv
                          exact absurd hv (by simp)
                    · -- divergence against the inserted word
                      have hle := fmp_le_right (c :: w₁') (c :: w₁)
                      have hle2 := fmp_le_left (c :: w₁') (c :: w₁)
                      rw [findAux_diverge w₁' hlk' (by simpa using g1) (by simpa using g2),
                        findAux_diverge w₁' hlk (by omega) (by omega), if_neg,
                        List.append_nil]
                      intro heq
                      exact g2 (by rw [heq, fmp_self])
              · by_cases h2 : find_mismatch_point (c :: w₁) ch.label = ch.label.length
                · -- Caso C: the child label is a strict prefix of the word; descend
                  have hlk' : lookupChild (insertAux (fi + 1) n (c :: w₁) d f).children c =
                      some (insertAux fi ch
                        ((c :: w₁).drop (find_mismatch_point (c :: w₁) ch.label)) d f) := by
                    rw [insertAux_caseC w₁ d f hlk h1 h2 hLcons, TrieNode.children_mk,
                      lookupChild_setChild_self]
                  have hLpos : 1 ≤ ch.label.length := by rw [hLcons]; simp
                  have hm1 : 1 ≤ find_mismatch_point (c :: w₁) ch.label := by omega
                  have hmltW : find_mismatch_point (c :: w₁) ch.label < (c :: w₁).length :=
                    lt_of_le_of_ne (fmp_le_left _ _) h1
                  have hwne : (c :: w₁).drop ch.label.length ≠ [] := by
                    obtain ⟨z, zs, hz⟩ := drop_cons_of_lt (h2 ▸ hmltW)
                    rw [hz]
                    simp
                  have clabel : (insertAux fi ch
                      ((c :: w₁).drop (find_mismatch_point (c :: w₁) ch.label)) d f).label =
                      ch.label := insertAux_label _ _ _ _ _
                  have cterm : (insertAux fi ch
                      ((c :: w₁).drop (find_mismatch_point (c :: w₁) ch.label)) d f).is_terminal =
                      ch.is_terminal := insertAux_is_terminal _ _ _ _ _
                  have cinv : (insertAux fi ch
                      ((c :: w₁).drop (find_mismatch_point (c :: w₁) ch.label)) d f).inverted_index =
                      ch.inverted_index := insertAux_inverted_index _ _ _ _ _
                  by_cases g1 : find_mismatch_point (c :: w₁') ch.label = (c :: w₁').length
                  · by_cases g2 : find_mismatch_point (c :: w₁') ch.label = ch.label.length
                    · -- exact on both sides
                      have hne' : ¬(c :: w₁' = c :: w₁) := by
                        intro heq
                        rw [heq] at g1
                        exact h1 g1
                      rw [findAux_exact w₁' hlk' (by rw [clabel]; exact g1)
                          (by rw [clabel]; exact g2),
                        findAux_exact w₁' hlk g1 g2, cterm, cinv, if_neg hne',
                        List.append_nil]
                    · -- word short on both sides
                      rw [findAux_word_short w₁' hlk' (by rw [clabel]; exact g1)
                          (by rw [clabel]; exact g2),
                        findAux_word_short w₁' hlk g1 g2, if_neg, List.append_nil]
                      intro heq
                      rw [heq] at g2
                      exact g2 h2
                  · by_cases g2 : find_mismatch_point (c :: w₁') ch.label = ch.label.length
                    · -- descend on both sides; apply the induction hypothesis
                      rw [findAux_descend w₁' hlk' (by rw [clabel]; exact g1)
                          (by rw [clabel]; exact g2) (by rw [clabel]; exact hLcons),
                        findAux_descend w₁' hlk g1 g2 hLcons, clabel, g2, h2]
                      have hfi' : ((c :: w₁).drop ch.label.length).length ≤ fi := by
                        rw [List.length_drop]
                        omega
                      have hff' : ((c :: w₁').drop ch.label.length).length ≤ k := by
                        rw [List.length_drop]
                        omega
                      rw [ih ch ((c :: w₁).drop ch.label.length) k
                        ((c :: w₁').drop ch.label.length) hfi' hwne hch.wfChildren hff']
                      congr 1
                      have htk : (c :: w₁').take ch.label.length =
                          (c :: w₁).take ch.label.length := by
                        rw [take_eq_take_of_le_fmp (le_of_eq g2.symm),
                          take_eq_take_of_le_fmp (le_of_eq h2.symm)]
                      exact if_congr ((eq_iff_drop_eq_of_take_eq htk).symm) rfl rfl
                    · -- divergence on both sides
                      rw [findAux_diverge w₁' hlk' (by rw [clabel]; exact g1)
                          (by rw [clabel]; exact g2),
                        findAux_diverge w₁' hlk g1 g2, if_neg, List.append_nil]
                      intro heq
                      rw [heq] at g2
                      exact g2 h2
                · by_cases h3 : 0 < find_mismatch_point (c :: w₁) ch.label
                  · -- Caso D: divergence split
                    have hmL : find_mismatch_point (c :: w₁) ch.label < ch.label.length :=
                      lt_of_le_of_ne (fmp_le_right _ _) h2
                    have hmW : find_mismatch_point (c :: w₁) ch.label < (c :: w₁).length :=
                      lt_of_le_of_ne (fmp_le_left _ _) h1
                    obtain ⟨x, xs, hdL⟩ := drop_cons_of_lt hmL
                    obtain ⟨y, ys, hdW⟩ := drop_cons_of_lt hmW
                    have hyx : y ≠ x := by
                      have hne := fmp_head_drop_ne hmW hmL
                      rw [hdL, hdW] at hne
                      simpa using hne
                    have hlk' : lookupChild (insertAux (fi + 1) n (c :: w₁) d f).children c =
                        some (TrieNode.mk
                          (ch.label.take (find_mismatch_point (c :: w₁) ch.label))
                          [(x, TrieNode.mk (x :: xs) ch.children ch.is_terminal
                            ch.inverted_index),
                           (y, TrieNode.mk (y :: ys) [] true [(d, f)])] false []) := by
                      rw [insertAux_caseD w₁ d f hlk h1 h2 h3 hdL hdW, TrieNode.children_mk,
                        lookupChild_setChild_self]
                    have hUtake : (c :: w₁).take (find_mismatch_point (c :: w₁) ch.label) =
                        ch.label.take (find_mismatch_point (c :: w₁) ch.label) :=
                      take_eq_take_of_le_fmp le_rfl
                    have hlentake :
                        (ch.label.take (find_mismatch_point (c :: w₁) ch.label)).length =
                        find_mismatch_point (c :: w₁) ch.label := by
                      rw [List.length_take]
                      omega
                    have hmin : find_mismatch_point (c :: w₁')
                        (ch.label.take (find_mismatch_point (c :: w₁) ch.label)) =
                        min (find_mismatch_point (c :: w₁') ch.label)
                          (find_mismatch_point (c :: w₁) ch.label) := fmp_take_right _ _ _
                    have hfl' := fmp_le_left (c :: w₁') ch.label
                    have hflT := fmp_le_left (c :: w₁')
                      (ch.label.take (find_mismatch_point (c :: w₁) ch.label))
                    by_cases g1 : find_mismatch_point (c :: w₁')
                        (ch.label.take (find_mismatch_point (c :: w₁) ch.label)) =
                        (c :: w₁').length
                    · by_cases g2 : find_mismatch_point (c :: w₁')
                          (ch.label.take (find_mismatch_point (c :: w₁) ch.label)) =
                          (ch.label.take (find_mismatch_point (c :: w₁) ch.label)).length
                      · -- the query word equals the split prefix: non-terminal, empty
                        rw [findAux_exact w₁' hlk' (by simpa using g1) (by simpa using g2)]
                        simp only [TrieNode.is_terminal_mk]
                        rw [if_neg (by simp),
                          findAux_word_short w₁' hlk (by omega) (by omega), if_neg,
                          List.append_nil]
                        intro heq
                        have hlen := congrArg List.length heq
                        omega
                      · -- the query word ends inside the split prefix
                        rw [findAux_word_short w₁' hlk' (by simpa using g1)
                            (by simpa using g2),
                          findAux_word_short w₁' hlk (by omega) (by omega), if_neg,
                          List.append_nil]
                        intro heq
                        have hlen := congrArg List.length heq
                        omega
                    · by_cases g2 : find_mismatch_point (c :: w₁')
                          (ch.label.take (find_mismatch_point (c :: w₁) ch.label)) =
                          (ch.label.take (find_mismatch_point (c :: w₁) ch.label)).length
                      · -- descend into the split node
                        have hmlt'' : find_mismatch_point (c :: w₁) ch.label <
                            (c :: w₁').length := by omega
                        have hu'take : (c :: w₁').take (find_mismatch_point (c :: w₁) ch.label) =
                            ch.label.take (find_mismatch_point (c :: w₁) ch.label) := by
                          have h := take_eq_take_of_le_fmp
                            (le_of_eq (g2.trans hlentake).symm)
                          rw [List.take_take, min_self] at h
                          exact h
                        obtain ⟨v0, vrest, hv⟩ := drop_cons_of_lt hmlt''
                        cases k with
                        | zero =>
                          exfalso
                          omega
                        | succ k₀ =>
                          have hTakeCons :
                              ch.label.take (find_mismatch_point (c :: w₁) ch.label) =
                              c :: ch.label.tail.take
                                (find_mismatch_point (c :: w₁) ch.label - 1) := by
                            obtain ⟨m₀, hm₀⟩ : ∃ m₀,
                                find_mismatch_point (c :: w₁) ch.label = m₀ + 1 :=
                              ⟨find_mismatch_point (c :: w₁) ch.label - 1, by omega⟩
                            conv_lhs => rw [hm₀, hLcons]
                            rw [hm₀]
                            simp
                          rw [findAux_descend w₁' hlk' (by simpa using g1)
                            (by simpa using g2) (by simpa using hTakeCons)]
                          simp only [TrieNode.label_mk]
                          rw [g2.trans hlentake, hv]
                          by_cases hvx : v0 = x
                          · subst hvx
                            rw [findAux_trimmed_bridge hlk hmL h3 hdL
                              (by rw [TrieNode.children_mk, lookupChild_cons, if_pos rfl])
                              hu'take hv (by omega), if_neg, List.append_nil]
                            intro heq
                            rw [heq, hdW] at hv
                            injection hv with hh _
                            exact hyx hh
                          · by_cases hvy : v0 = y
                            · subst v0
                              have hlkS : lookupChild (TrieNode.mk
                                  (ch.label.take (find_mismatch_point (c :: w₁) ch.label))
                                  [(x, TrieNode.mk (x :: xs) ch.children ch.is_terminal
                                    ch.inverted_index),
                                   (y, TrieNode.mk (y :: ys) [] true [(d, f)])]
                                  false []).children y =
                                  some (TrieNode.mk (y :: ys) [] true [(d, f)]) := by
                                rw [TrieNode.children_mk, lookupChild_cons,
                                  if_neg (fun hh => hyx hh.symm), lookupChild_cons,
                                  if_pos rfl]
                              rw [findAux_leaf_child vrest hlkS]
                              have hr0 : find_mismatch_point (y :: vrest) (x :: xs) = 0 := by
                                rw [fmp_cons, if_neg hyx]
                              have hgdec : find_mismatch_point (c :: w₁') ch.label =
                                  find_mismatch_point (c :: w₁) ch.label +
                                    find_mismatch_point (y :: vrest) (x :: xs) := by
                                rw [fmp_drop_of_take_eq hu'take (by omega), hv, hdL]
                              rw [findAux_diverge w₁' hlk (by omega) (by omega),
                                List.nil_append]
                              have htk : (c :: w₁').take
                                  (find_mismatch_point (c :: w₁) ch.label) =
                                  (c :: w₁).take
                                    (find_mismatch_point (c :: w₁) ch.label) :=
                                hu'take.trans hUtake.symm
                              have hiff : (y :: vrest = y :: ys) ↔
                                  (c :: w₁' = c :: w₁) := by
                                rw [← hv, ← hdW]
                                exact (eq_iff_drop_eq_of_take_eq htk).symm
                              exact if_congr hiff rfl rfl
                            · have hlkS : lookupChild (TrieNode.mk
                                  (ch.label.take (find_mismatch_point (c :: w₁) ch.label))
                                  [(x, TrieNode.mk (x :: xs) ch.children ch.is_terminal
                                    ch.inverted_index),
                                   (y, TrieNode.mk (y :: ys) [] true [(d, f)])]
                                  false []).children v0 = none := by
                                rw [TrieNode.children_mk, lookupChild_cons,
                                  if_neg (fun hh => hvx hh.symm), lookupChild_cons,
                                  if_neg (fun hh => hvy hh.symm), lookupChild_nil]
                              rw [findAux_none vrest hlkS]
                              have hr0 : find_mismatch_point (v0 :: vrest) (x :: xs) = 0 := by
                                rw [fmp_cons, if_neg hvx]
                              have hgdec : find_mismatch_point (c :: w₁') ch.label =
                                  find_mismatch_point (c :: w₁) ch.label +
                                    find_mismatch_point (v0 :: vrest) (x :: xs) := by
                                rw [fmp_drop_of_take_eq hu'take (by omega), hv, hdL]
                              rw [findAux_diverge w₁' hlk (by omega) (by omega), if_neg,
                                List.append_nil]
                              intro heq
                              rw [heq, hdW] at hv
                              injection hv with hh _
                              exact hvy hh.symm
                      · -- divergence inside the split prefix
                        rw [findAux_diverge w₁' hlk' (by simpa using g1) (by simpa using g2),
                          findAux_diverge w₁' hlk (by omega) (by omega), if_neg,
                          List.append_nil]
                        intro heq
                        apply g2
                        rw [heq, fmp_take_right, min_self, hlentake]
                  · -- unreachable: the word and the child label share their head
                    exfalso
                    rw [hLcons] at h3
                    simp at h3

/-! ### Results about tries built by a sequence of inserts -/

theorem foldl_insert_fields (ts : List (List Char × ℕ × ℕ)) (t : TrieNode) :
    (ts.foldl (fun t e => insert t e.1 e.2.1 e.2.2) t).label = t.label ∧
    (ts.foldl (fun t e => insert t e.1 e.2.1 e.2.2) t).is_terminal = t.is_terminal ∧
    (ts.foldl (fun t e => insert t e.1 e.2.1 e.2.2) t).inverted_index = t.inverted_index := by
  induction ts generalizing t with
  | nil => exact ⟨rfl, rfl, rfl⟩
  | cons e ts ih =>
    rw [List.foldl_cons]
    refine ⟨?_, ?_, ?_⟩
    · exact (ih _).1.trans (insertAux_label _ _ _ _ _)
    · exact (ih _).2.1.trans (insertAux_is_terminal _ _ _ _ _)
    · exact (ih _).2.2.trans (insertAux_inverted_index _ _ _ _ _)

theorem foldl_insert_WFChildren (ts : List (List Char × ℕ × ℕ)) (t : TrieNode)
    (h : WFChildren t.children) :
    WFChildren ((ts.foldl (fun t e => insert t e.1 e.2.1 e.2.2) t).children) := by
  induction ts generalizing t with
  | nil => exact h
  | cons e ts ih =>
    rw [List.foldl_cons]
    exact ih _ (insertAux_WFChildren _ _ _ _ _ h)

theorem buildTrie_WFChildren (ts : List (List Char × ℕ × ℕ)) :
    WFChildren (buildTrie ts).children :=
  foldl_insert_WFChildren ts emptyTrie WFChildren.nil

/-- The inverted-list entries a sequence of inserts contributes to a
given word, in insertion order. -/
def entriesFor (ts : List (List Char × ℕ × ℕ)) (w : List Char) : List (ℕ × ℕ) :=
  ts.filterMap (fun e => if e.1 = w then some (e.2.1, e.2.2) else none)

theorem find_emptyTrie (w : List Char) : find emptyTrie w = [] := by
  cases w with
  | nil => rw [find, findAux_nil]; rfl
  | cons c rest => exact findAux_none rest rfl

/-- `find` on a built trie returns exactly the entries inserted for that
word, in insertion order. -/
theorem find_buildTrie (ts : List (List Char × ℕ × ℕ)) (hts : ∀ e ∈ ts, e.1 ≠ [])
    (w : List Char) : find (buildTrie ts) w = entriesFor ts w := by
  induction ts using List.reverseRecOn with
  | nil =>
    rw [show buildTrie [] = emptyTrie from rfl, find_emptyTrie]
    rfl
  | append_singleton ts e ih =>
    have hbt : buildTrie (ts ++ [e]) = insert (buildTrie ts) e.1 e.2.1 e.2.2 := by
      rw [buildTrie, List.foldl_append]
      rfl
    rw [hbt, insert, find,
      findAux_insertAux e.1.length (buildTrie ts) e.1 e.2.1 e.2.2 w.length w le_rfl
        (hts e (by simp)) (buildTrie_WFChildren ts) le_rfl]
    rw [show findAux w.length (buildTrie ts) w = find (buildTrie ts) w from rfl,
      ih (fun e' he' => hts e' (by simp [he']))]
    conv_rhs => rw [entriesFor, List.filterMap_append]
    congr 1
    by_cases hew : e.1 = w
    · simp [hew]
    · have hwe : ¬(w = e.1) := fun hh => hew hh.symm
      simp [hew, hwe]

/-- C3: after any sequence of `insert(term, doc_id, tf)` calls with
non-empty terms, `lookup` (the source's `find`) contains `(d, f)` for
every inserted triple `(term, d, f)`; for every non-empty term never
inserted it returns the empty list; in particular it returns the empty
list on every term that is a strict prefix of an inserted term but was
not itself inserted. -/
theorem C3_insert_lookup (ts : List (List Char × ℕ × ℕ))
    (hts : ∀ e ∈ ts, e.1 ≠ []) :
    (∀ e ∈ ts, (e.2.1, e.2.2) ∈ find (buildTrie ts) e.1) ∧
    (∀ w : List Char, w ≠ [] → w ∉ ts.map (fun e => e.1) →
      find (buildTrie ts) w = []) ∧
    (∀ w : List Char, w ≠ [] →
      (∃ w' ∈ ts.map (fun e => e.1), ∃ u, u ≠ [] ∧ w' = w ++ u) →
      w ∉ ts.map (fun e => e.1) → find (buildTrie ts) w = []) := by
  have hempty : ∀ w : List Char, w ∉ ts.map (fun e => e.1) →
      find (buildTrie ts) w = [] := by
    intro w hnot
    rw [find_buildTrie ts hts w, entriesFor]
    rw [List.filterMap_eq_nil]
    intro e he
    rw [if_neg]
    intro hew
    exact hnot (hew ▸ List.mem_map_of_mem (fun e => e.1) he)
  refine ⟨?_, fun w _ hnot => hempty w hnot, fun w _ _ hnot => hempty w hnot⟩
  intro e he
  rw [find_buildTrie ts hts e.1, entriesFor, List.mem_filterMap]
  exact ⟨e, he, by rw [if_pos rfl]⟩

/-- Witness for C3 on the spec's concrete scenario: insert
`("carro", 1, 3)` then `("carga", 2, 1)`. -/
theorem C3_insert_lookup_witness :
    (∀ e ∈ [("carro".data, 1, 3), ("carga".data, 2, 1)], e.1 ≠ ([] : List Char)) ∧
    ((1, 3) ∈ find (buildTrie [("carro".data, 1, 3), ("carga".data, 2, 1)]) "carro".data) ∧
    find (buildTrie [("carro".data, 1, 3), ("carga".data, 2, 1)]) "car".data = [] := by
  refine ⟨by decide, ?_, ?_⟩
  · exact (C3_insert_lookup _ (by decide)).1 ("carro".data, 1, 3) (by decide)
  · exact (C3_insert_lookup _ (by decide)).2.1 "car".data (by decide) (by decide)

/-! ### The structural invariants of §3 (claim C4) -/

mutual
/-- No two sibling nodes anywhere in the (sub)trie have labels sharing
the same first character. -/
def siblingsDistinct : TrieNode → Bool
  | .mk _ cs _ _ =>
    decide ((cs.map (fun p => p.2.label.head?)).Nodup) && siblingsDistinctChildren cs
def siblingsDistinctChildren : List (Char × TrieNode) → Bool
  | [] => true
  | (_, ch) :: rest => siblingsDistinct ch && siblingsDistinctChildren rest
end

mutual
/-- Every node below the root (i.e. every strict descendant) has a
nonempty label. -/
def labelsNonEmpty : TrieNode → Bool
  | .mk _ cs _ _ => labelsNonEmptyChildren cs
def labelsNonEmptyChildren : List (Char × TrieNode) → Bool
  | [] => true
  | (_, ch) :: rest => decide (ch.label ≠ []) && labelsNonEmpty ch && labelsNonEmptyChildren rest
end

mutual
/-- Every non-terminal node below the root has at least two children. -/
def nonTerminalsBranch : TrieNode → Bool
  | .mk _ cs _ _ => nonTerminalsBranchChildren cs
def nonTerminalsBranchChildren : List (Char × TrieNode) → Bool
  | [] => true
  | (_, ch) :: rest =>
    (ch.is_terminal || decide (2 ≤ ch.children.length)) &&
      nonTerminalsBranch ch && nonTerminalsBranchChildren rest
end

mutual
theorem structural_of_WF_node : ∀ (n : TrieNode), WFChildren n.children →
    siblingsDistinct n = true ∧ labelsNonEmpty n = true ∧ nonTerminalsBranch n = true
  | .mk lab cs term inv, h => by
    obtain ⟨hc1, hc2, hc3⟩ := structural_of_WF_children cs h
    refine ⟨?_, ?_, ?_⟩
    · rw [siblingsDistinct, Bool.and_eq_true, decide_eq_true_iff]
      refine ⟨?_, hc1⟩
      have hmap : cs.map (fun p => p.2.label.head?) =
          (cs.map Prod.fst).map (fun c => some c) := by
        rw [List.map_map]
        exact List.map_congr_left (fun p hp => h.2.1 p hp)
      rw [hmap]
      exact h.1.map (fun a b hab => Option.some.inj hab)
    · rw [labelsNonEmpty]
      exact hc2
    · rw [nonTerminalsBranch]
      exact hc3
theorem structural_of_WF_children : ∀ (cs : List (Char × TrieNode)), WFChildren cs →
    siblingsDistinctChildren cs = true ∧ labelsNonEmptyChildren cs = true ∧
    nonTerminalsBranchChildren cs = true
  | [], _ => ⟨rfl, rfl, rfl⟩
  | (c, ch) :: rest, h => by
    have hch : WFNode ch := h.2.2 (c, ch) (by simp)
    obtain ⟨hn1, hn2, hn3⟩ := structural_of_WF_node ch hch.wfChildren
    obtain ⟨hr1, hr2, hr3⟩ := structural_of_WF_children rest h.tail
    refine ⟨?_, ?_, ?_⟩
    · rw [siblingsDistinctChildren, Bool.and_eq_true]
      exact ⟨hn1, hr1⟩
    · rw [labelsNonEmptyChildren, Bool.and_eq_true, Bool.and_eq_true, decide_eq_true_iff]
      exact ⟨⟨hch.label_ne_nil, hn2⟩, hr2⟩
    · rw [nonTerminalsBranchChildren, Bool.and_eq_true, Bool.and_eq_true]
      refine ⟨⟨?_, hn3⟩, hr3⟩
      cases ht : ch.is_terminal with
      | true => rfl
      | false =>
        rw [Bool.false_or, decide_eq_true_iff]
        exact (hch.nonterminal ht).1
end

/-- C4: after every sequence of `insert` calls with non-empty terms on a
fresh trie, the structural invariants hold: no two siblings share a
first-label character, no non-root node has an empty label, and every
non-terminal node other than the root has at least two children. -/
theorem C4_structural_invariants (ts : List (List Char × ℕ × ℕ))
    (hts : ∀ e ∈ ts, e.1 ≠ []) :
    siblingsDistinct (buildTrie ts) = true ∧
    labelsNonEmpty (buildTrie ts) = true ∧
    nonTerminalsBranch (buildTrie ts) = true :=
  structural_of_WF_node (buildTrie ts) (buildTrie_WFChildren ts)

/-- Witness for C4 on the spec's concrete scenario (three inserts,
exercising the split and terminalisation cases). -/
theorem C4_structural_invariants_witness :
    (∀ e ∈ [("carro".data, 1, 3), ("carga".data, 2, 1), ("car".data, 5, 2)],
      e.1 ≠ ([] : List Char)) ∧
    (siblingsDistinct (buildTrie [("carro".data, 1, 3), ("carga".data, 2, 1),
      ("car".data, 5, 2)]) = true ∧
     labelsNonEmpty (buildTrie [("carro".data, 1, 3), ("carga".data, 2, 1),
      ("car".data, 5, 2)]) = true ∧
     nonTerminalsBranch (buildTrie [("carro".data, 1, 3), ("carga".data, 2, 1),
      ("car".data, 5, 2)]) = true) :=
  ⟨by decide, C4_structural_invariants _ (by decide)⟩

/-- Python `str.strip()` at character level: remove leading and
trailing whitespace. -/
def trimChars (l : List Char) : List Char :=
  ((l.dropWhile Char.isWhitespace).reverse.dropWhile Char.isWhitespace).reverse

/-- C10: both trie operations are total on the empty term: `insert`
with an empty word returns the trie unchanged, and `find` of the empty
word returns the empty list on every trie built by insertions from an
empty trie, because `insert` never marks the root terminal. -/
theorem C10_empty_word (t : TrieNode) (d f : ℕ) (ts : List (List Char × ℕ × ℕ)) :
    insert t [] d f = t ∧ find (buildTrie ts) [] = [] := by
  constructor
  · rfl
  · rw [find, findAux_nil, buildTrie, (foldl_insert_fields ts emptyTrie).2.1]
    rfl

end CompactTrie

/-! ## The query pipeline of `RI.py` (`InformationRetriever`)

The retriever's loading step (`_load_data`) is file I/O and is not
modelled; `search` is modelled for a loaded retriever (`is_ready`),
taking the trie and the statistics table as arguments.  Statistics
values (`mu`, `sigma`) and scores are `ℚ`.  Python `set` iteration
order is implementation-defined; where it matters (`_rank_results`),
the model takes the iteration order as an explicit argument. -/

namespace RI

open CompactTrie

/-- `OP_PRECEDENCE` from `RI.py`. -/
def OP_PRECEDENCE : List (String × ℕ) := [("OR", 1), ("AND", 2), ("(", 0), (")", 0)]

/-- Python `token in OP_PRECEDENCE` (key membership). -/
def inOp (t : String) : Bool := (OP_PRECEDENCE.map Prod.fst).contains t

/-- Python `OP_PRECEDENCE.get(token, 0)` (also `OP_PRECEDENCE[token]`
for tokens known to be present). -/
def precOf (t : String) : ℕ :=
  ((OP_PRECEDENCE.find? (fun p => p.1 == t)).map Prod.snd).getD 0

/-- `query.replace('(', ' ( ').replace(')', ' ) ')` at character level
(the two replacements do not interfere since neither inserts the other's
pattern). -/
def padParens (l : List Char) : List Char :=
  l.flatMap (fun c =>
    if c = '(' then [' ', '(', ' ']
    else if c = ')' then [' ', ')', ' ']
    else [c])

/-- Python `str.split()` with no argument: maximal runs of
non-whitespace, discarding empty pieces. -/
def splitWsAux : List Char → List Char → List (List Char)
  | [], acc => if acc = [] then [] else [acc.reverse]
  | c :: cs, acc =>
    if c.isWhitespace then
      if acc = [] then splitWsAux cs [] else acc.reverse :: splitWsAux cs []
    else splitWsAux cs (c :: acc)

def split_whitespace (l : List Char) : List (List Char) := splitWsAux l []

/-- Python `str.lower()` (character-wise; the claims only involve
ASCII). -/
def lowerString (s : String) : String := String.mk (s.data.map Char.toLower)

/-- `InformationRetriever._tokenize_query`. -/
def tokenize_query (q : String) : List String :=
  let words := split_whitespace (padParens q.data)
  (words.filter (fun w => trimChars w ≠ [])).map
    (fun w => let t := String.mk w; if inOp t then t else lowerString t)

/-- The loop of `InformationRetriever._to_rpn`: `out` is `output`,
`stack` holds the operator stack with its top in front. -/
def to_rpnAux : List String → List String → List String → List String
  | [], out, stack => out ++ stack
  | t :: ts, out, stack =>
    if inOp t = false then
      to_rpnAux ts (out ++ [t]) stack
    else if t = "(" then
      to_rpnAux ts out ("(" :: stack)
    else if t = ")" then
      let rest := stack.dropWhile (fun s => s != "(")
      to_rpnAux ts (out ++ stack.takeWhile (fun s => s != "("))
        (if rest.head? = some "(" then rest.tail else rest)
    else
      to_rpnAux ts
        (out ++ stack.takeWhile (fun s => s != "(" && decide (precOf t ≤ precOf s)))
        (t :: stack.dropWhile (fun s => s != "(" && decide (precOf t ≤ precOf s)))

/-- `InformationRetriever._to_rpn`. -/
def to_rpn (tokens : List String) : List String := to_rpnAux tokens [] []

/-- The doc-id set of a term: `{doc_id for doc_id, tf in index_list}`. -/
def docSet (trie : TrieNode) (term : String) : Finset ℕ :=
  ((find trie term.data).map Prod.fst).toFinset

/-- One step of `InformationRetriever._evaluate_rpn`; a raised
`ValueError` is modelled as `Except.error` with the source's message.
The stack's top is the list head.  Tokens that are neither terms nor
`AND`/`OR` (a leftover parenthesis) are skipped, as in the source. -/
def evalStep (trie : TrieNode) (st : Except String (List (Finset ℕ))) (t : String) :
    Except String (List (Finset ℕ)) :=
  match st with
  | .error e => .error e
  | .ok stack =>
    if inOp t = false then .ok (docSet trie t :: stack)
    else if t = "AND" then
      match stack with
      | s2 :: s1 :: rest => .ok ((s1 ∩ s2) :: rest)
      | _ => .error "Consulta AND mal formada."
    else if t = "OR" then
      match stack with
      | s2 :: s1 :: rest => .ok ((s1 ∪ s2) :: rest)
      | _ => .error "Consulta OR mal formada."
    else .ok stack

instance instDecEqExcept {ε α : Type} [DecidableEq ε] [DecidableEq α] :
    DecidableEq (Except ε α) := fun a b =>
  match a, b with
  | .error e, .error e' =>
    if h : e = e' then isTrue (by rw [h]) else isFalse (fun hh => h (Except.error.inj hh))
  | .ok x, .ok y =>
    if h : x = y then isTrue (by rw [h]) else isFalse (fun hh => h (Except.ok.inj hh))
  | .error _, .ok _ => isFalse Except.noConfusion
  | .ok _, .error _ => isFalse Except.noConfusion

/-- `InformationRetriever._evaluate_rpn`. -/
def evaluate_rpn (trie : TrieNode) (tokens : List String) : Except String (Finset ℕ) :=
  match tokens.foldl (evalStep trie) (.ok []) with
  | .error e => .error e
  | .ok [s] => .ok s
  | .ok _ => .error "Consulta Booleana inválida."

/-- `InformationRetriever._calculate_z_score`.  The statistics table is
an association list `term ↦ (mu, sigma)`; `global_stats.get(term)`
returning `None` is `find? = none`. -/
def calculate_z_score (gstats : List (String × ℚ × ℚ)) (tf : ℚ) (term : String) : ℚ :=
  match gstats.find? (fun p => p.1 == term) with
  | none => 0
  | some (_, mu, sigma) =>
    if sigma ≤ 0 then (if mu < tf then 1 else 0) else (tf - mu) / sigma

/-- `next((t for d, t in index_list if d == doc_id), 0)`. -/
def firstTf (l : List (ℕ × ℕ)) (doc : ℕ) : ℕ :=
  ((l.find? (fun p => p.1 == doc)).map Prod.snd).getD 0

/-- The inner loop of `_rank_results` for one document: the summed
Z-scores of the query terms present in the document, and their count.
The fold order over the query terms does not affect the sum in `ℚ`. -/
def docScore (trie : TrieNode) (gstats : List (String × ℚ × ℚ))
    (queryTerms : List String) (doc : ℕ) : ℚ × ℕ :=
  queryTerms.foldl
    (fun acc term =>
      let tf := firstTf (find trie term.data) doc
      if 0 < tf then (acc.1 + calculate_z_score gstats (tf : ℚ) term, acc.2 + 1) else acc)
    (0, 0)

/-- The `(relevance, doc_id)` pairs of `_rank_results`, in the order the
candidate set is iterated; documents containing no query term are
dropped. -/
def rankCands (trie : TrieNode) (gstats : List (String × ℚ × ℚ))
    (docOrder : List ℕ) (queryTerms : List String) : List (ℚ × ℕ) :=
  docOrder.filterMap (fun doc =>
    let s := docScore trie gstats queryTerms doc
    if 0 < s.2 then some (s.1 / (s.2 : ℚ), doc) else none)

def insertDesc (x : ℚ × ℕ) : List (ℚ × ℕ) → List (ℚ × ℕ)
  | [] => [x]
  | y :: ys => if y.1 ≤ x.1 then x :: y :: ys else y :: insertDesc x ys

/-- Stable sort by descending first component, modelling
`ranked_docs.sort(key=lambda x: x[0], reverse=True)`: Python's sort is
stable, and with `reverse=True` elements with equal keys keep their
original relative order. -/
def sortDesc (l : List (ℚ × ℕ)) : List (ℚ × ℕ) := l.foldr insertDesc []

/-- `InformationRetriever._rank_results`.  `docOrder` is the iteration
order of the Python set `doc_ids`. -/
def rank_results (trie : TrieNode) (gstats : List (String × ℚ × ℚ))
    (docOrder : List ℕ) (queryTerms : List String) : List ℕ :=
  (sortDesc (rankCands trie gstats docOrder queryTerms)).map Prod.snd

/-- `InformationRetriever.search` for a loaded retriever: the caught
`ValueError` (printed and swallowed in the source) yields `[]`.
`order` gives the iteration order of the candidate doc-id set, and the
query-term set `{t for t in tokens if t not in OP_PRECEDENCE}` is
modelled as the deduplicated token list (its iteration order only
changes the order of an `ℚ`-sum). -/
def search (trie : TrieNode) (gstats : List (String × ℚ × ℚ))
    (order : Finset ℕ → List ℕ) (q : String) : List ℕ :=
  let tokens := tokenize_query q
  let queryTerms := (tokens.filter (fun t => inOp t = false)).dedup
  match evaluate_rpn trie (to_rpn tokens) with
  | .error _ => []
  | .ok s => if s = ∅ then [] else rank_results trie gstats (order s) queryTerms

end RI

/-! ### Claims about the query pipeline -/

namespace RI

open CompactTrie

/-- The index of the spec's boolean-evaluation scenario: terms `a`, `b`,
`c` with doc-id sets `{1,2,3}`, `{2,3,4}`, `{3,5}`. -/
def scenarioTrie : TrieNode := buildTrie
  [("a".data, 1, 1), ("a".data, 2, 1), ("a".data, 3, 1),
   ("b".data, 2, 1), ("b".data, 3, 1), ("b".data, 4, 1),
   ("c".data, 3, 1), ("c".data, 5, 1)]

/-- C7: `AND` binds tighter than `OR`: `"a AND b OR c"` is converted to
the postfix sequence `a b AND c OR` and evaluates to `{2,3,5}` on the
scenario index, while `"a AND (b OR c)"` evaluates to `{2,3}`. -/
theorem C7_and_binds_tighter :
    to_rpn (tokenize_query "a AND b OR c") = ["a", "b", "AND", "c", "OR"] ∧
    evaluate_rpn scenarioTrie (to_rpn (tokenize_query "a AND b OR c")) =
      .ok ({2, 3, 5} : Finset ℕ) ∧
    evaluate_rpn scenarioTrie (to_rpn (tokenize_query "a AND (b OR c)")) =
      .ok ({2, 3} : Finset ℕ) :=
  ⟨by decide, by decide, by decide⟩

/-- C2 counterexample: the query `"(a OR b"` does **not** fail with
`MALFORMED_QUERY`.  `_to_rpn` never checks for a leftover `(`: the final
loop pops it into the RPN output, where `_evaluate_rpn` silently skips
it (it is in `OP_PRECEDENCE` but is neither `AND` nor `OR`), so the
query produces a result set. -/
theorem C2_counterexample :
    to_rpn (tokenize_query "(a OR b") = ["a", "b", "OR", "("] ∧
    evaluate_rpn scenarioTrie (to_rpn (tokenize_query "(a OR b")) =
      .ok ({1, 2, 3, 4} : Finset ℕ) :=
  ⟨by decide, by decide⟩

/-- C2 amended: an unmatched `)` pops the whole operator stack without
error, and a `(` left on the operator stack at end of input is emitted
into the RPN output, where the evaluator ignores it; `"(a OR b"`
evaluates to the same result set as `"a OR b"` on every index and never
returns an error. -/
theorem C2_amended (trie : TrieNode) :
    to_rpn (tokenize_query "(a OR b") = ["a", "b", "OR", "("] ∧
    evaluate_rpn trie (to_rpn (tokenize_query "(a OR b")) =
      evaluate_rpn trie (to_rpn (tokenize_query "a OR b")) ∧
    ∀ msg, evaluate_rpn trie (to_rpn (tokenize_query "(a OR b")) ≠ .error msg := by
  refine ⟨by decide, rfl, ?_⟩
  intro msg h
  have hok : evaluate_rpn trie (to_rpn (tokenize_query "(a OR b")) =
      .ok (docSet trie "a" ∪ docSet trie "b") := rfl
  rw [hok] at h
  exact Except.noConfusion h

theorem foldl_evalStep_error (trie : TrieNode) (l : List String) (e : String) :
    l.foldl (evalStep trie) (.error e) = .error e := by
  induction l with
  | nil => rfl
  | cons t ts ih => rw [List.foldl_cons, show evalStep trie (.error e) t = .error e from rfl, ih]

/-- C6: whenever a binary operator is reached with fewer than two
operand sets on the stack, evaluation fails with the corresponding
`MALFORMED_QUERY` error, which propagates to the result of
`_evaluate_rpn`; `search` catches it and returns the empty list to its
caller (the process does not terminate; the model of `search` is a
total function, and other queries are unaffected since `search` is a
pure function of its query).  The second part settles the concrete
query `"a AND"`. -/
theorem C6_operator_underflow (trie : TrieNode) (pre post : List String) (op : String)
    (s : List (Finset ℕ))
    (hop : op = "AND" ∨ op = "OR")
    (hpre : pre.foldl (evalStep trie) (.ok []) = .ok s)
    (hlen : s.length < 2) :
    evaluate_rpn trie (pre ++ op :: post) =
      .error (if op = "AND" then "Consulta AND mal formada."
              else "Consulta OR mal formada.") ∧
    ∀ gstats order, search trie gstats order "a AND" = [] := by
  constructor
  · have hstep : evalStep trie (.ok s) op =
        .error (if op = "AND" then "Consulta AND mal formada."
                else "Consulta OR mal formada.") := by
      rcases hop with rfl | rfl
      · rw [if_pos rfl]
        match s, hlen with
        | [], _ => rfl
        | [x], _ => rfl
      · rw [if_neg (by decide)]
        match s, hlen with
        | [], _ => rfl
        | [x], _ => rfl
    rw [evaluate_rpn, List.foldl_append, hpre, List.foldl_cons, hstep,
      foldl_evalStep_error]
  · intro gstats order
    rfl

/-- Witness for C6 at the concrete underflowing query `"a AND"`
(postfix `a AND`: one operand on the stack when `AND` is reached). -/
theorem C6_operator_underflow_witness :
    (["a"].foldl (evalStep scenarioTrie) (.ok []) = .ok [docSet scenarioTrie "a"] ∧
      ([docSet scenarioTrie "a"] : List (Finset ℕ)).length < 2) ∧
    evaluate_rpn scenarioTrie (["a"] ++ "AND" :: []) =
      .error "Consulta AND mal formada." ∧
    search scenarioTrie [] (fun _ => []) "a AND" = [] := by
  have h := C6_operator_underflow scenarioTrie ["a"] [] "AND" [docSet scenarioTrie "a"]
    (Or.inl rfl) rfl (by decide)
  exact ⟨⟨rfl, by decide⟩, by simpa using h.1, h.2 [] (fun _ => [])⟩

/-- C9: a query that tokenizes to zero tokens makes `search` return the
empty list (internally `_evaluate_rpn []` raises the final-stack
`ValueError`, which `search` catches, returning `[]` — a value, not an
error, to the caller). -/
theorem C9_empty_query (trie : TrieNode) (gstats : List (String × ℚ × ℚ))
    (order : Finset ℕ → List ℕ) (q : String)
    (hq : tokenize_query q = []) :
    search trie gstats order q = [] := by
  rw [search, hq]
  rfl

/-- Witness for C9: the empty query and a whitespace-only query. -/
theorem C9_empty_query_witness :
    tokenize_query "" = [] ∧ tokenize_query "   " = [] ∧
    search scenarioTrie [] (fun _ => []) "" = [] ∧
    search scenarioTrie [] (fun _ => []) "   " = [] :=
  ⟨by decide, by decide,
    C9_empty_query scenarioTrie [] (fun _ => []) "" (by decide),
    C9_empty_query scenarioTrie [] (fun _ => []) "   " (by decide)⟩

/-- C8: `_calculate_z_score` returns 0 when the term has no entry in
the statistics table; when the term's `sigma` is at most 0 it returns
the literal `1` if `tf > mu` and the literal `0` otherwise — no
division is performed in this branch, so no NaN can arise (the model's
exact arithmetic has no NaN; the claim's "never NaN" corresponds to
the division being guarded); otherwise it returns `(tf − mu) / sigma`. -/
theorem C8_z_score (gstats : List (String × ℚ × ℚ)) (term : String) (tf : ℚ) :
    (gstats.find? (fun p => p.1 == term) = none →
      calculate_z_score gstats tf term = 0) ∧
    (∀ key (mu sigma : ℚ), gstats.find? (fun p => p.1 == term) = some (key, mu, sigma) →
      sigma ≤ 0 → calculate_z_score gstats tf term = if mu < tf then 1 else 0) ∧
    (∀ key (mu sigma : ℚ), gstats.find? (fun p => p.1 == term) = some (key, mu, sigma) →
      0 < sigma → calculate_z_score gstats tf term = (tf - mu) / sigma) := by
  refine ⟨?_, ?_, ?_⟩
  · intro h
    rw [calculate_z_score, h]
  · intro key mu sigma h hs
    rw [calculate_z_score, h]
    simp only [if_pos hs]
  · intro key mu sigma h hs
    rw [calculate_z_score, h]
    simp only [if_neg (not_le.mpr hs)]

/-- Witness for C8: all three branches at concrete statistics,
including the spec's ranking scenario (`mu = 4`, `sigma = 3`,
`tf = 10` gives `2`). -/
theorem C8_z_score_witness :
    calculate_z_score [] 4 "x" = 0 ∧
    calculate_z_score [("t", 3, 0)] 5 "t" = 1 ∧
    calculate_z_score [("t", 3, 0)] 3 "t" = 0 ∧
    calculate_z_score [("t", 4, 3)] 10 "t" = 2 := by
  refine ⟨(C8_z_score [] "x" 4).1 rfl, ?_, ?_, ?_⟩
  · rw [(C8_z_score [("t", 3, 0)] "t" 5).2.1 "t" 3 0 rfl le_rfl]
    norm_num
  · rw [(C8_z_score [("t", 3, 0)] "t" 3).2.1 "t" 3 0 rfl le_rfl]
    norm_num
  · rw [(C8_z_score [("t", 4, 3)] "t" 10).2.2 "t" 4 3 rfl (by norm_num)]
    norm_num

end RI

/-! ### Claim C1: ordering of ranked results -/

namespace RI

open CompactTrie

theorem mem_insertDesc {x z : ℚ × ℕ} {l : List (ℚ × ℕ)} (h : z ∈ insertDesc x l) :
    z = x ∨ z ∈ l := by
  induction l with
  | nil => simpa [insertDesc] using h
  | cons y ys ih =>
    rw [insertDesc] at h
    by_cases hc : y.1 ≤ x.1
    · rw [if_pos hc] at h
      rcases List.mem_cons.mp h with h' | h'
      · exact Or.inl h'
      · exact Or.inr h'
    · rw [if_neg hc] at h
      rcases List.mem_cons.mp h with h' | h'
      · exact Or.inr (by simp [h'])
      · rcases ih h' with h'' | h''
        · exact Or.inl h''
        · exact Or.inr (List.mem_cons_of_mem _ h'')

theorem insertDesc_pairwise {x : ℚ × ℕ} {l : List (ℚ × ℕ)}
    (h : l.Pairwise (fun a b => b.1 ≤ a.1)) :
    (insertDesc x l).Pairwise (fun a b => b.1 ≤ a.1) := by
  induction l with
  | nil => simp [insertDesc]
  | cons y ys ih =>
    rw [insertDesc]
    by_cases hc : y.1 ≤ x.1
    · rw [if_pos hc]
      refine List.Pairwise.cons ?_ h
      intro z hz
      rcases List.mem_cons.mp hz with rfl | hz'
      · exact hc
      · exact le_trans ((List.pairwise_cons.mp h).1 z hz') hc
    · rw [if_neg hc]
      obtain ⟨hy, hys⟩ := List.pairwise_cons.mp h
      refine List.Pairwise.cons ?_ (ih hys)
      intro z hz
      rcases mem_insertDesc hz with rfl | hz'
      · exact le_of_lt (lt_of_not_le hc)
      · exact hy z hz'

/-- The output of the ranking sort is ordered by descending relevance. -/
theorem sortDesc_pairwise (l : List (ℚ × ℕ)) :
    (sortDesc l).Pairwise (fun a b => b.1 ≤ a.1) := by
  induction l with
  | nil => simp [sortDesc]
  | cons x xs ih => exact insertDesc_pairwise ih

theorem filter_insertDesc (x : ℚ × ℕ) (l : List (ℚ × ℕ)) (v : ℚ)
    (hl : l.Pairwise (fun a b => b.1 ≤ a.1)) :
    (insertDesc x l).filter (fun p => decide (p.1 = v)) =
      (x :: l).filter (fun p => decide (p.1 = v)) := by
  induction l with
  | nil => rfl
  | cons y ys ih =>
    obtain ⟨hy, hys⟩ := List.pairwise_cons.mp hl
    rw [insertDesc]
    by_cases hc : y.1 ≤ x.1
    · rw [if_pos hc]
    · rw [if_neg hc]
      by_cases hyv : y.1 = v
      · have hx : ¬x.1 = v := fun hx => hc (le_of_eq (hyv.trans hx.symm))
        simp only [List.filter_cons, ih hys]
        simp [hx, hyv]
      · simp only [List.filter_cons, ih hys]
        simp [hyv]

/-- Ties keep the order in which they entered the sort. -/
theorem sortDesc_filter (l : List (ℚ × ℕ)) (v : ℚ) :
    (sortDesc l).filter (fun p => decide (p.1 = v)) =
      l.filter (fun p => decide (p.1 = v)) := by
  induction l with
  | nil => rfl
  | cons x xs ih =>
    rw [show sortDesc (x :: xs) = insertDesc x (sortDesc xs) from rfl,
      filter_insertDesc x (sortDesc xs) v (sortDesc_pairwise xs),
      List.filter_cons, List.filter_cons, ih]

/-- C1 amended: `_rank_results` sorts the candidates by descending
relevance, and candidates with equal relevance appear in the order the
candidate doc-id set is iterated — not necessarily ascending `doc_id`
(the sort key is the relevance alone and Python's sort is stable).
The output is a deterministic function of the index, the statistics,
the query terms and the candidate-set iteration order. -/
theorem C1_rank_ordering (trie : TrieNode) (gstats : List (String × ℚ × ℚ))
    (docOrder : List ℕ) (queryTerms : List String) :
    (sortDesc (rankCands trie gstats docOrder queryTerms)).Pairwise
      (fun a b => b.1 ≤ a.1) ∧
    (∀ v : ℚ, (sortDesc (rankCands trie gstats docOrder queryTerms)).filter
        (fun p => decide (p.1 = v)) =
      (rankCands trie gstats docOrder queryTerms).filter (fun p => decide (p.1 = v))) ∧
    rank_results trie gstats docOrder queryTerms =
      (sortDesc (rankCands trie gstats docOrder queryTerms)).map Prod.snd :=
  ⟨sortDesc_pairwise _, fun v => sortDesc_filter _ v, rfl⟩

/-- The index and statistics of the C1 counterexample: documents 1 and
8 both contain term `t` with the same term frequency, hence equal
relevance. -/
def tieTrie : TrieNode := buildTrie [("t".data, 1, 2), ("t".data, 8, 2)]

def tieStats : List (String × ℚ × ℚ) := [("t", 0, 1)]

theorem sortDesc_pair (a b : ℚ × ℕ) (h : b.1 ≤ a.1) : sortDesc [a, b] = [a, b] := by
  rw [show sortDesc [a, b] = insertDesc a [b] from rfl, insertDesc, if_pos h]

/-- C1 counterexample: documents 1 and 8 tie on relevance, and CPython
iterates the candidate set `{1, 8}` in hash-slot order `[8, 1]`
(`hash(n) = n` for small naturals and the initial table has 8 slots, so
8 occupies slot 0 and 1 slot 1).  Since `_rank_results` sorts only by
relevance (stable), the tie surfaces in iteration order `[8, 1]`, not
in ascending doc-id order `[1, 8]` as the claim states. -/
theorem C1_counterexample :
    docScore tieTrie tieStats ["t"] 1 = docScore tieTrie tieStats ["t"] 8 ∧
    rank_results tieTrie tieStats [8, 1] ["t"] = [8, 1] ∧
    rank_results tieTrie tieStats [8, 1] ["t"] ≠ [1, 8] := by
  have hds : docScore tieTrie tieStats ["t"] 1 = docScore tieTrie tieStats ["t"] 8 := rfl
  have hrank : rank_results tieTrie tieStats [8, 1] ["t"] = [8, 1] := by
    rw [rank_results,
      show rankCands tieTrie tieStats [8, 1] ["t"] =
        [((docScore tieTrie tieStats ["t"] 8).1 /
            ((docScore tieTrie tieStats ["t"] 8).2 : ℚ), 8),
         ((docScore tieTrie tieStats ["t"] 1).1 /
            ((docScore tieTrie tieStats ["t"] 1).2 : ℚ), 1)]
        from rfl,
      sortDesc_pair _ _ (le_of_eq (by rw [hds]))]
    rfl
  refine ⟨hds, hrank, by rw [hrank]; decide⟩

end RI

namespace CompactTrie

/-! ## Persistence (`pre_order_serialize` / `load_from_file`, claim C5)

`save_to_file` writes one line per node in pre-order, visiting the
children of each node in ascending key order
(`for char in sorted(node.children.keys())`); each line is
`label|terminal_flag|child_count|inverted_list`.  `load_from_file`
rebuilds the trie from the lines with a stack of
`(parent, remaining_children)` entries, attaching each node under the
first character of its label and popping a parent once its child count
is exhausted.  The loader below is the persistent-data rendering of
that destructive-update loop: a child is attached to its parent when
its own subtree is complete rather than when its line is read.  On the
output of `pre_order_serialize` the two coincide, because the lines of
a child's subtree are exactly the contiguous block following its own
line.  Both directions are modelled on lists of lines (the written
`"\n"` and the reader's `str.strip()` cancelling between them). -/

mutual
/-- Height of a node: one more than the height of its tallest child.
Used as fuel by the definitions below that recurse through `sortKeys`,
which structural recursion cannot follow. -/
def height : TrieNode → ℕ
  | .mk _ cs _ _ => heightChildren cs + 1
def heightChildren : List (Char × TrieNode) → ℕ
  | [] => 0
  | (_, ch) :: rest => max (height ch) (heightChildren rest)
end

theorem height_mk (lab : List Char) (cs : List (Char × TrieNode)) (term : Bool)
    (inv : List (ℕ × ℕ)) :
    height (TrieNode.mk lab cs term inv) = heightChildren cs + 1 := rfl

theorem heightChildren_cons (p : Char × TrieNode) (rest : List (Char × TrieNode)) :
    heightChildren (p :: rest) = max (height p.2) (heightChildren rest) := by
  obtain ⟨c, ch⟩ := p
  rfl

theorem height_pos (n : TrieNode) : 0 < height n := by
  obtain ⟨lab, cs, term, inv⟩ := n
  rw [height_mk]
  omega

theorem height_le_of_mem {cs : List (Char × TrieNode)} {p : Char × TrieNode}
    (hp : p ∈ cs) : height p.2 ≤ heightChildren cs := by
  induction cs with
  | nil => cases hp
  | cons q rest ih =>
    rw [heightChildren_cons]
    rcases List.mem_cons.mp hp with rfl | h
    · exact le_max_left _ _
    · exact le_trans (ih h) (le_max_right _ _)

/-- Insertion into a key-sorted association list: one step of sorting
the children the way `sorted(node.children.keys())` visits them. -/
def insertByKey (p : Char × TrieNode) : List (Char × TrieNode) → List (Char × TrieNode)
  | [] => [p]
  | q :: rest => if p.1 ≤ q.1 then p :: q :: rest else q :: insertByKey p rest

/-- The child list in ascending key order. -/
def sortKeys (cs : List (Char × TrieNode)) : List (Char × TrieNode) :=
  cs.foldr insertByKey []

theorem insertByKey_perm (p : Char × TrieNode) (l : List (Char × TrieNode)) :
    List.Perm (insertByKey p l) (p :: l) := by
  induction l with
  | nil => exact List.Perm.refl _
  | cons q rest ih =>
    rw [insertByKey]
    by_cases h : p.1 ≤ q.1
    · rw [if_pos h]
    · rw [if_neg h]
      exact (ih.cons q).trans (List.Perm.swap p q rest)

theorem sortKeys_perm (cs : List (Char × TrieNode)) : List.Perm (sortKeys cs) cs := by
  induction cs with
  | nil => exact List.Perm.refl _
  | cons p rest ih =>
    rw [sortKeys, List.foldr_cons]
    exact (insertByKey_perm p _).trans (ih.cons p)

/-- The trie with every child map rewritten in ascending key order: the
shape `load_from_file` reconstructs from a serialized trie.  The fuel
is the height (see `sortTrie`). -/
def sortTrieAux : ℕ → TrieNode → TrieNode
  | 0, n => n
  | fuel + 1, .mk lab cs term inv =>
      .mk lab ((sortKeys cs).map (fun p => (p.1, sortTrieAux fuel p.2))) term inv

def sortTrie (t : TrieNode) : TrieNode := sortTrieAux (height t) t

theorem sortTrieAux_fields (fuel : ℕ) (n : TrieNode) :
    (sortTrieAux fuel n).label = n.label ∧
    (sortTrieAux fuel n).is_terminal = n.is_terminal ∧
    (sortTrieAux fuel n).inverted_index = n.inverted_index := by
  cases fuel with
  | zero => exact ⟨rfl, rfl, rfl⟩
  | succ fuel =>
    obtain ⟨lab, cs, term, inv⟩ := n
    exact ⟨rfl, rfl, rfl⟩

/-- The indexable alphabet (the `[a-z0-9&-]` token class of
`indexer.py`); its characters are never the separators `|`, `;`, `,`
of the persistence format. -/
def serChars : List Char := "abcdefghijklmnopqrstuvwxyz0123456789&-".data

theorem serChars_sep : ∀ c ∈ serChars, ¬c = '|' ∧ ¬c = ';' ∧ ¬c = ',' := by decide

/-- A word over the serializable alphabet. -/
def serWord (l : List Char) : Bool := l.all (fun c => decide (c ∈ serChars))

theorem serWord_iff {l : List Char} : serWord l = true ↔ ∀ c ∈ l, c ∈ serChars := by
  rw [serWord, List.all_eq_true]
  constructor
  · intro h c hc
    exact of_decide_eq_true (h c hc)
  · intro h c hc
    exact decide_eq_true (h c hc)

mutual
/-- Every label in the (sub)trie is a word over the serializable
alphabet. -/
def serLabels : TrieNode → Bool
  | .mk lab cs _ _ => serWord lab && serLabelsChildren cs
def serLabelsChildren : List (Char × TrieNode) → Bool
  | [] => true
  | (_, ch) :: rest => serLabels ch && serLabelsChildren rest
end

theorem serLabels_eq (n : TrieNode) :
    serLabels n = (serWord n.label && serLabelsChildren n.children) := by
  obtain ⟨lab, cs, term, inv⟩ := n
  rfl

theorem serLabelsChildren_nil : serLabelsChildren [] = true := rfl

theorem serLabelsChildren_cons (p : Char × TrieNode) (rest : List (Char × TrieNode)) :
    serLabelsChildren (p :: rest) = (serLabels p.2 && serLabelsChildren rest) := by
  obtain ⟨c, ch⟩ := p
  rfl

theorem serLabels_parts {n : TrieNode} (h : serLabels n = true) :
    serWord n.label = true ∧ serLabelsChildren n.children = true := by
  rw [serLabels_eq, Bool.and_eq_true] at h
  exact h

theorem serLabelsChildren_mem {cs : List (Char × TrieNode)}
    (h : serLabelsChildren cs = true) {p : Char × TrieNode} (hp : p ∈ cs) :
    serLabels p.2 = true := by
  induction cs with
  | nil => cases hp
  | cons q rest ih =>
    rw [serLabelsChildren_cons, Bool.and_eq_true] at h
    rcases List.mem_cons.mp hp with rfl | h'
    · exact h.1
    · exact ih h.2 h'

theorem serLabelsChildren_setChild {cs : List (Char × TrieNode)}
    (h : serLabelsChildren cs = true) {c : Char} {m : TrieNode}
    (hm : serLabels m = true) : serLabelsChildren (setChild cs c m) = true := by
  induction cs with
  | nil =>
    rw [setChild, serLabelsChildren_cons, Bool.and_eq_true]
    exact ⟨hm, serLabelsChildren_nil⟩
  | cons q rest ih =>
    obtain ⟨c₀, n₀⟩ := q
    rw [serLabelsChildren_cons, Bool.and_eq_true] at h
    rw [setChild]
    by_cases h0 : c₀ = c
    · rw [if_pos h0, serLabelsChildren_cons, Bool.and_eq_true]
      exact ⟨hm, h.2⟩
    · rw [if_neg h0, serLabelsChildren_cons, Bool.and_eq_true]
      exact ⟨h.1, ih h.2⟩

theorem serLabels_lookup {cs : List (Char × TrieNode)} (h : serLabelsChildren cs = true)
    {c : Char} {ch : TrieNode} (hlk : lookupChild cs c = some ch) :
    serLabels ch = true := by
  rw [lookupChild, Option.map_eq_some'] at hlk
  obtain ⟨p, hp, hp2⟩ := hlk
  have hmem := serLabelsChildren_mem h (List.mem_of_find?_eq_some hp)
  rwa [hp2] at hmem

theorem serWord_take {l : List Char} (h : serWord l = true) (k : ℕ) :
    serWord (l.take k) = true := by
  rw [serWord_iff] at h ⊢
  exact fun c hc => h c (List.mem_of_mem_take hc)

theorem serWord_drop {l : List Char} (h : serWord l = true) (k : ℕ) :
    serWord (l.drop k) = true := by
  rw [serWord_iff] at h ⊢
  exact fun c hc => h c (List.mem_of_mem_drop hc)

/-- Inserting a word over the serializable alphabet keeps every label
in the trie serializable (every label created by `insert` is a segment
of the inserted word or of an existing label). -/
theorem insertAux_serLabels (fuel : ℕ) (n : TrieNode) (w : List Char) (d f : ℕ)
    (hn : serLabelsChildren n.children = true) (hw : serWord w = true) :
    serLabelsChildren (insertAux fuel n w d f).children = true := by
  induction fuel generalizing n w with
  | zero =>
    cases w with
    | nil => rw [insertAux_nil]; exact hn
    | cons c w => rw [insertAux_zero]; exact hn
  | succ fuel ih =>
    cases w with
    | nil => rw [insertAux_nil]; exact hn
    | cons c w =>
      cases hlk : lookupChild n.children c with
      | none =>
        rw [insertAux_none w d f hlk, TrieNode.children_mk]
        refine serLabelsChildren_setChild hn ?_
        rw [serLabels_eq, TrieNode.label_mk, TrieNode.children_mk, hw, serLabelsChildren_nil]
        rfl
      | some ch =>
        have hch := serLabels_lookup hn hlk
        obtain ⟨hchl, hchc⟩ := serLabels_parts hch
        by_cases h1 : find_mismatch_point (c :: w) ch.label = (c :: w).length
        · by_cases h2 : find_mismatch_point (c :: w) ch.label = ch.label.length
          · rw [insertAux_caseA w d f hlk h1 h2, TrieNode.children_mk]
            refine serLabelsChildren_setChild hn ?_
            rw [serLabels_eq, TrieNode.label_mk, TrieNode.children_mk, hchl, hchc]
            rfl
          · obtain ⟨x, xs, hdL⟩ := drop_cons_of_lt
              (lt_of_le_of_ne (fmp_le_right (c :: w) ch.label) h2)
            rw [insertAux_caseB w d f hlk h1 h2 hdL, TrieNode.children_mk]
            refine serLabelsChildren_setChild hn ?_
            have hxs : serWord (x :: xs) = true := by
              rw [← hdL]
              exact serWord_drop hchl _
            rw [serLabels_eq, TrieNode.label_mk, TrieNode.children_mk, hw]
            rw [serLabelsChildren_cons, serLabels_eq]
            simp only [TrieNode.label_mk, TrieNode.children_mk]
            rw [hxs, hchc, serLabelsChildren_nil]
            rfl
        · by_cases h2 : find_mismatch_point (c :: w) ch.label = ch.label.length
          · cases hx : ch.label with
            | nil =>
              rw [insertAux_caseC_nil w d f hlk h1 h2 hx]
              exact hn
            | cons x xs =>
              rw [insertAux_caseC w d f hlk h1 h2 hx, TrieNode.children_mk]
              refine serLabelsChildren_setChild hn ?_
              rw [serLabels_eq, Bool.and_eq_true]
              constructor
              · rw [(insertAux_fields fuel ch _ d f).1]
                exact hchl
              · exact ih ch _ hchc (serWord_drop hw _)
          · by_cases h3 : 0 < find_mismatch_point (c :: w) ch.label
            · have hmL : find_mismatch_point (c :: w) ch.label < ch.label.length :=
                lt_of_le_of_ne (fmp_le_right (c :: w) ch.label) h2
              have hmW : find_mismatch_point (c :: w) ch.label < (c :: w).length :=
                lt_of_le_of_ne (fmp_le_left (c :: w) ch.label) h1
              obtain ⟨x, xs, hdL⟩ := drop_cons_of_lt hmL
              obtain ⟨y, ys, hdW⟩ := drop_cons_of_lt hmW
              rw [insertAux_caseD w d f hlk h1 h2 h3 hdL hdW, TrieNode.children_mk]
              refine serLabelsChildren_setChild hn ?_
              have hxs : serWord (x :: xs) = true := by
                rw [← hdL]
                exact serWord_drop hchl _
              have hys : serWord (y :: ys) = true := by
                rw [← hdW]
                exact serWord_drop hw _
              rw [serLabels_eq]
              simp only [TrieNode.label_mk, TrieNode.children_mk]
              rw [serWord_take hchl, serLabelsChildren_cons, serLabels_eq]
              simp only [TrieNode.label_mk, TrieNode.children_mk]
              rw [hxs, hchc, serLabelsChildren_cons, serLabels_eq]
              simp only [TrieNode.label_mk, TrieNode.children_mk]
              rw [hys, serLabelsChildren_nil]
              rfl
            · rw [insertAux_caseE w d f hlk h1 h2 h3]
              exact hn

theorem foldl_insert_serLabels (ts : List (List Char × ℕ × ℕ)) (t : TrieNode)
    (ht : serLabelsChildren t.children = true)
    (h : ∀ e ∈ ts, serWord e.1 = true) :
    serLabelsChildren ((ts.foldl (fun t e => insert t e.1 e.2.1 e.2.2) t).children) = true := by
  induction ts generalizing t with
  | nil => exact ht
  | cons e rest ih =>
    rw [List.foldl_cons]
    exact ih _ (insertAux_serLabels _ _ _ _ _ ht (h e (by simp)))
      (fun e' he' => h e' (by simp [he']))

theorem buildTrie_serLabels (ts : List (List Char × ℕ × ℕ))
    (h : ∀ e ∈ ts, serWord e.1 = true) : serLabels (buildTrie ts) = true := by
  rw [serLabels_eq, Bool.and_eq_true]
  constructor
  · rw [buildTrie, (foldl_insert_fields ts emptyTrie).1]
    rfl
  · exact foldl_insert_serLabels ts emptyTrie rfl h

/-! ### Decimal digit strings (the `f"{n}"` conversions and `int(s)`) -/

/-- The decimal digit character of `d % 10`. -/
def digitChar (d : ℕ) : Char := Char.ofNat (48 + d % 10)

/-- The value of a decimal digit character, `none` on any other
character. -/
def digitVal (c : Char) : Option ℕ :=
  if 48 ≤ c.toNat ∧ c.toNat ≤ 57 then some (c.toNat - 48) else none

def natToCharsAux : ℕ → ℕ → List Char
  | 0, _ => []
  | fuel + 1, n => if n = 0 then [] else natToCharsAux fuel (n / 10) ++ [digitChar n]

/-- Decimal representation of a natural number (most significant digit
first); `n` itself is enough fuel since a number has at most `n`
digits. -/
def natToChars (n : ℕ) : List Char := if n = 0 then ['0'] else natToCharsAux n n

/-- One step of reading a decimal numeral left to right. -/
def parseStep (acc : Option ℕ) (c : Char) : Option ℕ :=
  match acc, digitVal c with
  | some a, some dv => some (10 * a + dv)
  | _, _ => none

/-- `int(s)` on the all-digit strings the loader meets: the value of a
nonempty digit string, `none` on anything else. -/
def parseNat (s : List Char) : Option ℕ :=
  if s = [] then none else s.foldl parseStep (some 0)

theorem digitChar_mod (d : ℕ) : digitChar d = digitChar (d % 10) := by
  rw [digitChar, digitChar, Nat.mod_mod_of_dvd d (dvd_refl 10)]

theorem digitChar_facts : ∀ k, k < 10 →
    digitVal (digitChar k) = some k ∧ ¬digitChar k = '|' ∧
      ¬digitChar k = ';' ∧ ¬digitChar k = ',' := by decide

theorem parseStep_digit (a d : ℕ) : parseStep (some a) (digitChar d) = some (10 * a + d % 10) := by
  have h := (digitChar_facts (d % 10) (Nat.mod_lt _ (by norm_num))).1
  rw [digitChar_mod]
  simp [parseStep, h]

theorem natToCharsAux_digit {fuel : ℕ} : ∀ {n : ℕ} {c : Char}, c ∈ natToCharsAux fuel n →
    ∃ d, c = digitChar d := by
  induction fuel with
  | zero =>
    intro n c hc
    cases hc
  | succ fuel ih =>
    intro n c hc
    rw [natToCharsAux] at hc
    by_cases h0 : n = 0
    · rw [if_pos h0] at hc
      cases hc
    · rw [if_neg h0] at hc
      rcases List.mem_append.mp hc with h | h
      · exact ih h
      · rw [List.mem_singleton] at h
        exact ⟨n, h⟩

theorem natToChars_sep {n : ℕ} {c : Char} (hc : c ∈ natToChars n) :
    ¬c = '|' ∧ ¬c = ';' ∧ ¬c = ',' := by
  rw [natToChars] at hc
  by_cases h0 : n = 0
  · rw [if_pos h0, List.mem_singleton] at hc
    subst hc
    exact ⟨by decide, by decide, by decide⟩
  · rw [if_neg h0] at hc
    obtain ⟨d, rfl⟩ := natToCharsAux_digit hc
    rw [digitChar_mod]
    exact (digitChar_facts (d % 10) (Nat.mod_lt _ (by norm_num))).2

theorem natToChars_ne_nil (n : ℕ) : natToChars n ≠ [] := by
  rw [natToChars]
  by_cases h0 : n = 0
  · rw [if_pos h0]
    simp
  · rw [if_neg h0]
    cases n with
    | zero => exact absurd rfl h0
    | succ m =>
      rw [natToCharsAux, if_neg h0]
      simp

theorem foldl_parseStep_aux (fuel : ℕ) : ∀ n a, n ≤ fuel →
    List.foldl parseStep (some a) (natToCharsAux fuel n) =
      some (a * 10 ^ (natToCharsAux fuel n).length + n) := by
  induction fuel with
  | zero =>
    intro n a hn
    have h0 : n = 0 := by omega
    subst h0
    simp [natToCharsAux]
  | succ fuel ih =>
    intro n a hn
    rw [natToCharsAux]
    by_cases h0 : n = 0
    · rw [if_pos h0]
      subst h0
      simp
    · rw [if_neg h0]
      have h10 : n / 10 ≤ fuel := by
        have := Nat.div_lt_self (Nat.pos_of_ne_zero h0) (by norm_num : 1 < 10)
        omega
      rw [List.foldl_append, ih _ a h10, List.foldl_cons, List.foldl_nil, parseStep_digit,
        List.length_append, List.length_singleton, pow_succ]
      congr 1
      have hdm := Nat.div_add_mod n 10
      calc 10 * (a * 10 ^ (natToCharsAux fuel (n / 10)).length + n / 10) + n % 10
          = a * (10 ^ (natToCharsAux fuel (n / 10)).length * 10) + (10 * (n / 10) + n % 10) := by
            ring
        _ = a * (10 ^ (natToCharsAux fuel (n / 10)).length * 10) + n := by rw [hdm]

theorem parseNat_natToChars (n : ℕ) : parseNat (natToChars n) = some n := by
  by_cases h0 : n = 0
  · subst h0
    decide
  · rw [parseNat, if_neg (natToChars_ne_nil n), natToChars, if_neg h0,
      foldl_parseStep_aux n n 0 le_rfl]
    simp

/-! ### Splitting and joining on a separator character -/

/-- Python `str.split(sep)` for a one-character separator (the result
is always nonempty; `"".split(sep) = [""]`). -/
def splitOnChar (sep : Char) : List Char → List (List Char)
  | [] => [[]]
  | c :: cs =>
    match splitOnChar sep cs with
    | [] => []
    | r :: rs => if c = sep then [] :: r :: rs else (c :: r) :: rs

/-- Python `sep.join(parts)` for a one-character separator. -/
def joinSep (sep : Char) : List (List Char) → List Char
  | [] => []
  | [x] => x
  | x :: y :: rest => x ++ sep :: joinSep sep (y :: rest)

theorem splitOnChar_ne_nil (sep : Char) (s : List Char) : splitOnChar sep s ≠ [] := by
  induction s with
  | nil => simp [splitOnChar]
  | cons c cs ih =>
    rw [splitOnChar]
    cases hb : splitOnChar sep cs with
    | nil => exact absurd hb ih
    | cons r rs =>
      by_cases hc : c = sep
      · simp [hc]
      · simp [hc]

theorem splitOnChar_no_sep {sep : Char} {s : List Char} (h : ∀ c ∈ s, ¬c = sep) :
    splitOnChar sep s = [s] := by
  induction s with
  | nil => rfl
  | cons c cs ih =>
    have hrec := ih (fun c' hc' => h c' (List.mem_cons_of_mem _ hc'))
    rw [splitOnChar, hrec]
    simp [h c (List.mem_cons_self _ _)]

theorem splitOnChar_append {sep : Char} {a : List Char} (h : ∀ c ∈ a, ¬c = sep)
    (b : List Char) : splitOnChar sep (a ++ sep :: b) = a :: splitOnChar sep b := by
  induction a with
  | nil =>
    rw [List.nil_append, splitOnChar]
    cases hb : splitOnChar sep b with
    | nil => exact absurd hb (splitOnChar_ne_nil sep b)
    | cons r rs => simp
  | cons c cs ih =>
    have hrec := ih (fun c' hc' => h c' (List.mem_cons_of_mem _ hc'))
    rw [List.cons_append, splitOnChar, hrec]
    simp [h c (List.mem_cons_self _ _)]

theorem splitOnChar_joinSep {sep : Char} : ∀ (parts : List (List Char)), parts ≠ [] →
    (∀ p ∈ parts, ∀ c ∈ p, ¬c = sep) → splitOnChar sep (joinSep sep parts) = parts
  | [], h, _ => absurd rfl h
  | [x], _, hp => by
    rw [joinSep]
    exact splitOnChar_no_sep (hp x (by simp))
  | x :: y :: rest, _, hp => by
    rw [joinSep, splitOnChar_append (hp x (by simp)),
      splitOnChar_joinSep (y :: rest) (by simp) (fun p hpp => hp p (by simp [hpp]))]

theorem joinSep_ne_nil {sep : Char} : ∀ (parts : List (List Char)), parts ≠ [] →
    (∀ p ∈ parts, p ≠ []) → joinSep sep parts ≠ []
  | [], h, _ => absurd rfl h
  | [x], _, hp => by
    rw [joinSep]
    exact hp x (by simp)
  | x :: y :: rest, _, hp => by
    rw [joinSep]
    have hx : x ≠ [] := hp x (by simp)
    cases x with
    | nil => exact absurd rfl hx
    | cons c cs => simp

theorem mem_joinSep {sep : Char} : ∀ {parts : List (List Char)} {c : Char},
    c ∈ joinSep sep parts → c = sep ∨ ∃ p ∈ parts, c ∈ p
  | [], c, hc => by cases hc
  | [x], c, hc => by
    rw [joinSep] at hc
    exact Or.inr ⟨x, by simp, hc⟩
  | x :: y :: rest, c, hc => by
    rw [joinSep] at hc
    rcases List.mem_append.mp hc with h | h
    · exact Or.inr ⟨x, by simp, h⟩
    · rcases List.mem_cons.mp h with rfl | h'
      · exact Or.inl rfl
      · rcases mem_joinSep h' with h'' | ⟨p, hp, hcp⟩
        · exact Or.inl h''
        · exact Or.inr ⟨p, by simp [List.mem_cons.mp hp], hcp⟩

/-! ### One line of the persistence file -/

/-- The four fields of a line
`label|terminal_flag|child_count|inverted_list`. -/
structure SerRec where
  lab : List Char
  term : Bool
  childCount : ℕ
  inv : List (ℕ × ℕ)

/-- `f"{doc},{freq}"`. -/
def formatEntry (p : ℕ × ℕ) : List Char := natToChars p.1 ++ ',' :: natToChars p.2

/-- `";".join(f"{doc},{freq}" for ...)`. -/
def formatInv (inv : List (ℕ × ℕ)) : List Char := joinSep ';' (inv.map formatEntry)

/-- `f"{label}|{1 if is_terminal else 0}|{len(children)}|{index_str}"`. -/
def formatLine (lab : List Char) (term : Bool) (nc : ℕ) (inv : List (ℕ × ℕ)) : List Char :=
  lab ++ '|' ::
    ((if term then ['1'] else ['0']) ++ '|' :: (natToChars nc ++ '|' :: formatInv inv))

/-- `doc_id, freq = map(int, item.split(','))`. -/
def parseEntry (s : List Char) : Option (ℕ × ℕ) :=
  match splitOnChar ',' s with
  | [a, b] =>
    match parseNat a, parseNat b with
    | some d, some f => some (d, f)
    | _, _ => none
  | _ => none

/-- The entry-parsing loop over `index_str.split(';')`. -/
def parseEntries : List (List Char) → Option (List (ℕ × ℕ))
  | [] => some []
  | s :: rest =>
    match parseEntry s, parseEntries rest with
    | some e, some r => some (e :: r)
    | _, _ => none

/-- The body of the per-line parse, after
`label, t, nc, idx = line.split('|')` succeeded: `int(nc)`, the
terminal flag comparison `t == '1'`, and (only when `idx` is nonempty)
the inverted-list parse. -/
def parseFields (lab t nc idx : List Char) : Option SerRec :=
  match parseNat nc with
  | none => none
  | some n =>
    match (if idx = [] then some [] else parseEntries (splitOnChar ';' idx)) with
    | none => none
    | some inv => some ⟨lab, t == ['1'], n, inv⟩

/-- Parsing one line of the file; `none` stands for the exceptions that
make `load_from_file` return `False`. -/
def parseLine (s : List Char) : Option SerRec :=
  match splitOnChar '|' s with
  | [lab, t, nc, idx] => parseFields lab t nc idx
  | _ => none

theorem parseLine_eq_fields {s : List Char} {a b c d : List Char}
    (h : splitOnChar '|' s = [a, b, c, d]) : parseLine s = parseFields a b c d := by
  rw [parseLine, h]

theorem formatEntry_chars {p : ℕ × ℕ} {c : Char} (hc : c ∈ formatEntry p) :
    ¬c = '|' ∧ ¬c = ';' := by
  rw [formatEntry] at hc
  rcases List.mem_append.mp hc with h | h
  · exact ⟨(natToChars_sep h).1, (natToChars_sep h).2.1⟩
  · rcases List.mem_cons.mp h with rfl | h'
    · exact ⟨by decide, by decide⟩
    · exact ⟨(natToChars_sep h').1, (natToChars_sep h').2.1⟩

theorem formatEntry_ne_nil (p : ℕ × ℕ) : formatEntry p ≠ [] := by
  rw [formatEntry]
  simp

theorem formatInv_chars {inv : List (ℕ × ℕ)} {c : Char} (hc : c ∈ formatInv inv) :
    ¬c = '|' := by
  rw [formatInv] at hc
  rcases mem_joinSep hc with rfl | ⟨p, hp, hcp⟩
  · decide
  · obtain ⟨q, _, rfl⟩ := List.mem_map.mp hp
    exact (formatEntry_chars hcp).1

theorem ifTerm_chars (term : Bool) {c : Char} (hc : c ∈ (if term then ['1'] else ['0'])) :
    ¬c = '|' := by
  cases term <;> simp at hc <;> subst hc <;> decide

theorem ifTerm_beq (term : Bool) : ((if term then ['1'] else ['0']) == ['1']) = term := by
  cases term <;> rfl

theorem parseEntry_formatEntry (p : ℕ × ℕ) : parseEntry (formatEntry p) = some p := by
  obtain ⟨d, f⟩ := p
  show parseEntry (natToChars d ++ ',' :: natToChars f) = some (d, f)
  rw [parseEntry,
    splitOnChar_append (fun c hc => (natToChars_sep hc).2.2) (natToChars f),
    splitOnChar_no_sep (fun c hc => (natToChars_sep hc).2.2)]
  simp only [parseNat_natToChars]

theorem parseEntries_formatEntry : ∀ (inv : List (ℕ × ℕ)),
    parseEntries (inv.map formatEntry) = some inv
  | [] => rfl
  | p :: rest => by
    rw [List.map_cons, parseEntries, parseEntry_formatEntry,
      parseEntries_formatEntry rest]

theorem parseLine_formatLine (lab : List Char) (term : Bool) (nc : ℕ)
    (inv : List (ℕ × ℕ)) (hlab : ∀ c ∈ lab, c ∈ serChars) :
    parseLine (formatLine lab term nc inv) = some ⟨lab, term, nc, inv⟩ := by
  have hlab' : ∀ c ∈ lab, ¬c = '|' := fun c hc => (serChars_sep c (hlab c hc)).1
  have hsplit : splitOnChar '|' (formatLine lab term nc inv) =
      [lab, if term then ['1'] else ['0'], natToChars nc, formatInv inv] := by
    rw [formatLine, splitOnChar_append hlab',
      splitOnChar_append (fun c hc => ifTerm_chars term hc),
      splitOnChar_append (fun c hc => (natToChars_sep hc).1),
      splitOnChar_no_sep (fun c hc => formatInv_chars hc)]
  rw [parseLine_eq_fields hsplit, parseFields]
  by_cases hinv : inv = []
  · subst hinv
    simp only [parseNat_natToChars, formatInv, List.map_nil, joinSep,
      eq_self_iff_true, if_true, ifTerm_beq]
  · have hne : formatInv inv ≠ [] := by
      rw [formatInv]
      exact joinSep_ne_nil _ (by simpa using hinv) (by
        intro p hp
        obtain ⟨q, _, rfl⟩ := List.mem_map.mp hp
        exact formatEntry_ne_nil q)
    have hsplitInv : splitOnChar ';' (formatInv inv) = inv.map formatEntry := by
      rw [formatInv]
      exact splitOnChar_joinSep _ (by simpa using hinv) (by
        intro p hp c hc
        obtain ⟨q, _, rfl⟩ := List.mem_map.mp hp
        exact (formatEntry_chars hc).2)
    simp only [parseNat_natToChars, if_neg hne, hsplitInv, parseEntries_formatEntry,
      ifTerm_beq]

/-! ### The serializer and the loader -/

def concatLines : List (List (List Char)) → List (List Char)
  | [] => []
  | l :: rest => l ++ concatLines rest

/-- `pre_order_serialize`: the node's own line, then the lines of the
children in ascending key order.  Fueled by the height. -/
def serializeAux : ℕ → TrieNode → List (List Char)
  | 0, _ => []
  | fuel + 1, .mk lab cs term inv =>
    formatLine lab term cs.length inv ::
      concatLines ((sortKeys cs).map (fun p => serializeAux fuel p.2))

/-- The list of lines `save_to_file` writes for a trie with the given
root. -/
def serialize (t : TrieNode) : List (List Char) := serializeAux (height t) t

/-- A pending entry of the loader's reconstruction stack: the fields
read from a node's line, the children rebuilt so far, and the number of
children still owed. -/
structure Frame where
  lab : List Char
  term : Bool
  inv : List (ℕ × ℕ)
  done : List (Char × TrieNode)
  remaining : ℕ

def frameNode (fr : Frame) : TrieNode := TrieNode.mk fr.lab fr.done fr.term fr.inv

/-- Attach a rebuilt node under the first character of its label
(`parent_node.children[new_node.label[0]] = new_node`) and give the
parent credit for one child. -/
def attachTo (n : TrieNode) (fr : Frame) : Frame :=
  ⟨fr.lab, fr.term, fr.inv, setChild fr.done (n.label.headD default) n, fr.remaining - 1⟩

/-- Attach a rebuilt node to the innermost pending frame, cascading
completions (`stack.pop()`) upward; `Sum.inl` is the fully rebuilt
root. -/
def cascadeAttach : List Frame → TrieNode → Frame → Sum TrieNode (Frame × List Frame)
  | [], n, fr =>
    if (attachTo n fr).remaining = 0 then Sum.inl (frameNode (attachTo n fr))
    else Sum.inr (attachTo n fr, [])
  | f2 :: fs, n, fr =>
    if (attachTo n fr).remaining = 0 then cascadeAttach fs (frameNode (attachTo n fr)) f2
    else Sum.inr (attachTo n fr, f2 :: fs)

/-- Dispatch a rebuilt node into a (possibly empty) stack. -/
def cascadeStep (n : TrieNode) : List Frame → Sum TrieNode (Frame × List Frame)
  | [] => Sum.inl n
  | f2 :: fs => cascadeAttach fs n f2

/-- The loop body of `load_from_file` for one line, given the pending
stack (innermost frame first): parse the line, fail on an empty label
(`new_node.label[0]` raises), and either complete a leaf or push a
frame for a node that still owes children. -/
def loadStep (fr : Frame) (frs : List Frame) (line : List Char) :
    Option (Sum TrieNode (Frame × List Frame)) :=
  match parseLine line with
  | none => none
  | some r =>
    if r.lab = [] then none
    else if r.childCount = 0 then
      some (cascadeAttach frs (TrieNode.mk r.lab [] r.term r.inv) fr)
    else some (Sum.inr (⟨r.lab, r.term, r.inv, [], r.childCount⟩, fr :: frs))

/-- The `for line in f` loop; an empty stack (`Sum.inl`) breaks, so
later lines are ignored. -/
def processLines : List (List Char) → Sum TrieNode (Frame × List Frame) →
    Option (Sum TrieNode (Frame × List Frame))
  | [], st => some st
  | _ :: _, Sum.inl root => some (Sum.inl root)
  | line :: rest, Sum.inr (fr, frs) =>
    match loadStep fr frs line with
    | none => none
    | some st => processLines rest st

/-- Forced completion at end of file: the eager attachment of the
source means a truncated file still yields the partially filled
tree. -/
def forceComplete : List Frame → TrieNode → TrieNode
  | [], n => n
  | fr :: frs, n => forceComplete frs (frameNode (attachTo n fr))

def finalize : Sum TrieNode (Frame × List Frame) → TrieNode
  | Sum.inl root => root
  | Sum.inr (fr, frs) => forceComplete frs (frameNode fr)

/-- `load_from_file` on the list of lines of the file; `none` is
`return False`.  The first line seeds the root (whose label may be
empty: `self.root.label = label` without indexing). -/
def loadLines : List (List Char) → Option TrieNode
  | [] => none
  | first :: rest =>
    match parseLine first with
    | none => none
    | some r =>
      match processLines rest
        (if r.childCount = 0 then Sum.inl (TrieNode.mk r.lab [] r.term r.inv)
         else Sum.inr (⟨r.lab, r.term, r.inv, [], r.childCount⟩, [])) with
      | none => none
      | some st => some (finalize st)

theorem attachTo_remaining (n : TrieNode) (fr : Frame) :
    (attachTo n fr).remaining = fr.remaining - 1 := rfl

theorem cascadeAttach_complete {n : TrieNode} {fr : Frame}
    (h : (attachTo n fr).remaining = 0) (bs : List Frame) :
    cascadeAttach bs n fr = cascadeStep (frameNode (attachTo n fr)) bs := by
  cases bs with
  | nil => rw [cascadeAttach, if_pos h, cascadeStep]
  | cons f fs => rw [cascadeAttach, if_pos h, cascadeStep]

theorem cascadeAttach_incomplete {n : TrieNode} {fr : Frame}
    (h : ¬(attachTo n fr).remaining = 0) (bs : List Frame) :
    cascadeAttach bs n fr = Sum.inr (attachTo n fr, bs) := by
  cases bs with
  | nil => rw [cascadeAttach, if_neg h]
  | cons f fs => rw [cascadeAttach, if_neg h]

theorem processLines_cons_some {l : List Char} {fr : Frame} {frs : List Frame}
    {st : Sum TrieNode (Frame × List Frame)} (h : loadStep fr frs l = some st)
    (ls : List (List Char)) :
    processLines (l :: ls) (Sum.inr (fr, frs)) = processLines ls st := by
  rw [processLines, h]

theorem loadStep_parsed {line : List Char} {r : SerRec} (h : parseLine line = some r)
    (hlab : ¬r.lab = []) (fr : Frame) (frs : List Frame) :
    loadStep fr frs line =
      (if r.childCount = 0 then
        some (cascadeAttach frs (TrieNode.mk r.lab [] r.term r.inv) fr)
       else some (Sum.inr (⟨r.lab, r.term, r.inv, [], r.childCount⟩, fr :: frs))) := by
  rw [loadStep, h]
  simp only [if_neg hlab]

theorem concatLines_cons (l : List (List Char)) (ls : List (List (List Char))) :
    concatLines (l :: ls) = l ++ concatLines ls := rfl

theorem headD_of_head? {l : List Char} {a : Char} (h : l.head? = some a) (d : Char) :
    l.headD d = a := by
  cases l with
  | nil => simp at h
  | cons x xs =>
    simp only [List.head?_cons, Option.some.injEq] at h
    simp [h]

theorem foldl_setChild_map (k : Char × TrieNode → Char) (g : Char × TrieNode → TrieNode)
    (ps : List (Char × TrieNode)) :
    ∀ (D : List (Char × TrieNode)), (ps.map k).Nodup →
      (∀ x ∈ ps.map k, x ∉ D.map Prod.fst) →
      ps.foldl (fun D p => setChild D (k p) (g p)) D = D ++ ps.map (fun p => (k p, g p)) := by
  induction ps with
  | nil =>
    intro D _ _
    simp
  | cons p rest ih =>
    intro D hnd hdisj
    simp only [List.foldl_cons]
    have hset : setChild D (k p) (g p) = D ++ [(k p, g p)] :=
      setChild_of_lookup_none (lookupChild_eq_none_iff.mpr (hdisj (k p) (by simp))) _
    have hnd' : (rest.map k).Nodup := by
      rw [List.map_cons, List.nodup_cons] at hnd
      exact hnd.2
    have hdisj' : ∀ x ∈ rest.map k, x ∉ (D ++ [(k p, g p)]).map Prod.fst := by
      intro x hx
      rw [List.map_append, List.mem_append]
      rintro (h | h)
      · exact hdisj x (by simp [hx]) h
      · rw [List.map_cons, List.nodup_cons] at hnd
        simp only [List.map_cons, List.map_nil, List.mem_singleton] at h
        subst h
        exact hnd.1 hx
    rw [hset, ih _ hnd' hdisj', List.map_cons, List.append_assoc]
    rfl

/-- Loading the serialization of a well-formed non-root node, inside a
larger file: it consumes exactly its own block of lines and attaches
the key-sorted copy of the node to the innermost pending frame. -/
def SerPart1 (fuel : ℕ) : Prop :=
  ∀ (t : TrieNode) (fr : Frame) (frs : List Frame) (rest : List (List Char)),
    height t ≤ fuel → WFNode t → serLabels t = true →
    processLines (serializeAux fuel t ++ rest) (Sum.inr (fr, frs)) =
      processLines rest (cascadeAttach frs (sortTrieAux fuel t) fr)

/-- Loading the concatenated serializations of the pending children of
a frame: it fills the frame and completes it into the stack below. -/
def SerPart2 (fuel : ℕ) : Prop :=
  ∀ (ps : List (Char × TrieNode)) (g : Frame) (bs : List Frame) (rest : List (List Char)),
    ps ≠ [] → g.remaining = ps.length →
    (∀ p ∈ ps, height p.2 ≤ fuel ∧ WFNode p.2 ∧ serLabels p.2 = true) →
    processLines (concatLines (ps.map (fun p => serializeAux fuel p.2)) ++ rest)
        (Sum.inr (g, bs)) =
      processLines rest (cascadeStep
        (TrieNode.mk g.lab
          (ps.foldl (fun D p => setChild D ((sortTrieAux fuel p.2).label.headD default)
            (sortTrieAux fuel p.2)) g.done)
          g.term g.inv) bs)

theorem processLines_ser (fuel : ℕ) : SerPart1 fuel ∧ SerPart2 fuel := by
  induction fuel with
  | zero =>
    constructor
    · intro t fr frs rest hh _ _
      exact absurd hh (by have := height_pos t; omega)
    · intro ps g bs rest hne hrem hps
      cases ps with
      | nil => exact absurd rfl hne
      | cons p qs =>
        have hp := (hps p (by simp)).1
        exact absurd hp (by have := height_pos p.2; omega)
  | succ fuel ih =>
    have h1 : SerPart1 (fuel + 1) := by
      intro t fr frs rest hh hwf hser
      obtain ⟨lab, cs, term, inv⟩ := t
      have hlabser : ∀ c ∈ lab, c ∈ serChars := by
        have hsw := (serLabels_parts hser).1
        rw [TrieNode.label_mk] at hsw
        exact serWord_iff.mp hsw
      have hlabne : lab ≠ [] := by
        have h := hwf.label_ne_nil
        rwa [TrieNode.label_mk] at h
      have hchs : serLabelsChildren cs = true := by
        have h := (serLabels_parts hser).2
        rwa [TrieNode.children_mk] at h
      have hparse := parseLine_formatLine lab term cs.length inv hlabser
      cases cs with
      | nil =>
        have hstep : loadStep fr frs
            (formatLine lab term ([] : List (Char × TrieNode)).length inv) =
            some (cascadeAttach frs (TrieNode.mk lab [] term inv) fr) := by
          rw [loadStep_parsed hparse hlabne, if_pos (by simp)]
        rw [serializeAux]
        simp only [sortKeys, List.foldr_nil, List.map_nil, concatLines, List.cons_append,
          List.nil_append]
        rw [processLines_cons_some hstep]
        rfl
      | cons c0 cs' =>
        have hstep : loadStep fr frs (formatLine lab term (c0 :: cs').length inv) =
            some (Sum.inr (⟨lab, term, inv, [], (c0 :: cs').length⟩, fr :: frs)) := by
          rw [loadStep_parsed hparse hlabne, if_neg (by simp)]
        rw [serializeAux, List.cons_append, processLines_cons_some hstep]
        have hwfc : WFChildren (c0 :: cs') := by
          have h := hwf.wfChildren
          rwa [TrieNode.children_mk] at h
        have hps : ∀ p ∈ sortKeys (c0 :: cs'),
            height p.2 ≤ fuel ∧ WFNode p.2 ∧ serLabels p.2 = true := by
          intro p hp
          have hpcs : p ∈ c0 :: cs' := (sortKeys_perm _).mem_iff.mp hp
          refine ⟨?_, hwfc.2.2 p hpcs, serLabelsChildren_mem hchs hpcs⟩
          have hle := height_le_of_mem hpcs
          rw [height_mk] at hh
          omega
        have hlen2 : sortKeys (c0 :: cs') ≠ [] := by
          have hlen := (sortKeys_perm (c0 :: cs')).length_eq
          intro hnil
          rw [hnil] at hlen
          simp at hlen
        rw [ih.2 (sortKeys (c0 :: cs')) ⟨lab, term, inv, [], (c0 :: cs').length⟩ (fr :: frs)
          rest hlen2 (by rw [(sortKeys_perm (c0 :: cs')).length_eq]) hps]
        have hkey : ∀ p ∈ sortKeys (c0 :: cs'),
            (sortTrieAux fuel p.2).label.headD default = p.1 := by
          intro p hp
          have hpcs : p ∈ c0 :: cs' := (sortKeys_perm _).mem_iff.mp hp
          rw [(sortTrieAux_fields fuel p.2).1]
          exact headD_of_head? (hwfc.2.1 p hpcs) default
        have hmapk : (sortKeys (c0 :: cs')).map
            (fun p => (sortTrieAux fuel p.2).label.headD default) =
            (sortKeys (c0 :: cs')).map Prod.fst := List.map_congr_left hkey
        have hnd : ((sortKeys (c0 :: cs')).map Prod.fst).Nodup :=
          ((sortKeys_perm (c0 :: cs')).map Prod.fst).nodup_iff.mpr hwfc.1
        have hfold : (sortKeys (c0 :: cs')).foldl
            (fun D p => setChild D ((sortTrieAux fuel p.2).label.headD default)
              (sortTrieAux fuel p.2)) [] =
            (sortKeys (c0 :: cs')).map (fun p => (p.1, sortTrieAux fuel p.2)) := by
          rw [foldl_setChild_map (fun p => (sortTrieAux fuel p.2).label.headD default)
            (fun p => sortTrieAux fuel p.2) (sortKeys (c0 :: cs')) []
            (by rw [hmapk]; exact hnd) (by simp)]
          rw [List.nil_append]
          exact List.map_congr_left (fun p hp => by rw [hkey p hp])
        rw [show (⟨lab, term, inv, [], (c0 :: cs').length⟩ : Frame).done =
            ([] : List (Char × TrieNode)) from rfl] at *
        rw [hfold]
        rfl
    have h2 : SerPart2 (fuel + 1) := by
      intro ps
      induction ps with
      | nil =>
        intro g bs rest hne
        exact absurd rfl hne
      | cons p qs ihps =>
        intro g bs rest hne hrem hps
        have hp := hps p (by simp)
        rw [List.map_cons, concatLines_cons, List.append_assoc,
          h1 p.2 g bs _ hp.1 hp.2.1 hp.2.2]
        cases qs with
        | nil =>
          have hrem1 : g.remaining = 1 := by simpa using hrem
          have hc : (attachTo (sortTrieAux (fuel + 1) p.2) g).remaining = 0 := by
            rw [attachTo_remaining, hrem1]
          rw [cascadeAttach_complete hc]
          rfl
        | cons q qs' =>
          have hc : ¬(attachTo (sortTrieAux (fuel + 1) p.2) g).remaining = 0 := by
            rw [attachTo_remaining, hrem]
            simp
          rw [cascadeAttach_incomplete hc]
          rw [ihps (attachTo (sortTrieAux (fuel + 1) p.2) g) bs rest (by simp)
            (by rw [attachTo_remaining, hrem]; simp)
            (fun p' hp' => hps p' (by simp [hp']))]
          rfl
    exact ⟨h1, h2⟩

theorem sortKeys_foldl_attach (fuel : ℕ) {cs : List (Char × TrieNode)}
    (hwfc : WFChildren cs) :
    (sortKeys cs).foldl
      (fun D p => setChild D ((sortTrieAux fuel p.2).label.headD default)
        (sortTrieAux fuel p.2)) [] =
      (sortKeys cs).map (fun p => (p.1, sortTrieAux fuel p.2)) := by
  have hkey : ∀ p ∈ sortKeys cs, (sortTrieAux fuel p.2).label.headD default = p.1 := by
    intro p hp
    have hpcs : p ∈ cs := (sortKeys_perm _).mem_iff.mp hp
    rw [(sortTrieAux_fields fuel p.2).1]
    exact headD_of_head? (hwfc.2.1 p hpcs) default
  have hmapk : (sortKeys cs).map (fun p => (sortTrieAux fuel p.2).label.headD default) =
      (sortKeys cs).map Prod.fst := List.map_congr_left hkey
  have hnd : ((sortKeys cs).map Prod.fst).Nodup :=
    ((sortKeys_perm cs).map Prod.fst).nodup_iff.mpr hwfc.1
  rw [foldl_setChild_map (fun p => (sortTrieAux fuel p.2).label.headD default)
    (fun p => sortTrieAux fuel p.2) (sortKeys cs) [] (by rw [hmapk]; exact hnd) (by simp)]
  rw [List.nil_append]
  exact List.map_congr_left (fun p hp => by rw [hkey p hp])

/-- Loading the pre-order serialization of a trie rebuilds it exactly,
with every child map in ascending key order. -/
theorem loadLines_serialize (t : TrieNode) (hlab : t.label = [])
    (hwf : WFChildren t.children) (hser : serLabels t = true) :
    loadLines (serialize t) = some (sortTrie t) := by
  obtain ⟨lab, cs, term, inv⟩ := t
  rw [TrieNode.label_mk] at hlab
  subst hlab
  rw [TrieNode.children_mk] at hwf
  have hchs : serLabelsChildren cs = true := by
    have h := (serLabels_parts hser).2
    rwa [TrieNode.children_mk] at h
  have hparse := parseLine_formatLine [] term cs.length inv (by simp)
  rw [serialize, sortTrie, height_mk, serializeAux, loadLines, hparse]
  cases cs with
  | nil =>
    simp only [sortKeys, List.foldr_nil, List.map_nil, concatLines, List.length_nil,
      eq_self_iff_true, if_true, processLines, finalize]
    rfl
  | cons c0 cs' =>
    have hlen : ¬(c0 :: cs').length = 0 := by simp
    simp only [List.length_eq_zero, if_neg hlen]
    have hps : ∀ p ∈ sortKeys (c0 :: cs'),
        height p.2 ≤ heightChildren (c0 :: cs') ∧ WFNode p.2 ∧ serLabels p.2 = true := by
      intro p hp
      have hpcs : p ∈ c0 :: cs' := (sortKeys_perm _).mem_iff.mp hp
      exact ⟨height_le_of_mem hpcs, hwf.2.2 p hpcs, serLabelsChildren_mem hchs hpcs⟩
    have hlen2 : sortKeys (c0 :: cs') ≠ [] := by
      have hl := (sortKeys_perm (c0 :: cs')).length_eq
      intro hnil
      rw [hnil] at hl
      simp at hl
    have hrun := (processLines_ser (heightChildren (c0 :: cs'))).2 (sortKeys (c0 :: cs'))
      ⟨[], term, inv, [], (c0 :: cs').length⟩ [] []
      hlen2 (by rw [(sortKeys_perm (c0 :: cs')).length_eq]) hps
    rw [List.append_nil] at hrun
    simp only [processLines, cascadeStep] at hrun
    rw [sortKeys_foldl_attach _ hwf] at hrun
    rw [hrun]
    rfl

/-! ### `find` is invariant under reordering the child maps -/

theorem lookupChild_eq_some_iff {cs : List (Char × TrieNode)}
    (hnd : (cs.map Prod.fst).Nodup) {c : Char} {n : TrieNode} :
    lookupChild cs c = some n ↔ (c, n) ∈ cs := by
  induction cs with
  | nil => simp [lookupChild]
  | cons p rest ih =>
    obtain ⟨c₀, n₀⟩ := p
    rw [List.map_cons, List.nodup_cons] at hnd
    rw [lookupChild_cons]
    by_cases h0 : c₀ = c
    · rw [if_pos h0]
      constructor
      · intro h
        rw [Option.some.injEq] at h
        subst h
        exact List.mem_cons.mpr (Or.inl (by rw [h0]))
      · intro h
        rcases List.mem_cons.mp h with h' | h'
        · rw [Prod.mk.injEq] at h'
          rw [h'.2]
        · exfalso
          have hcm : c ∈ rest.map Prod.fst := List.mem_map.mpr ⟨(c, n), h', rfl⟩
          rw [← h0] at hcm
          exact hnd.1 hcm
    · rw [if_neg h0, ih hnd.2]
      constructor
      · exact List.mem_cons_of_mem _
      · intro h
        rcases List.mem_cons.mp h with h' | h'
        · rw [Prod.mk.injEq] at h'
          exact absurd h'.1.symm h0
        · exact h'

theorem lookupChild_perm {cs cs' : List (Char × TrieNode)} (hperm : List.Perm cs cs')
    (hnd : (cs.map Prod.fst).Nodup) (c : Char) :
    lookupChild cs c = lookupChild cs' c := by
  have hnd' : (cs'.map Prod.fst).Nodup := ((hperm.map Prod.fst).nodup_iff).mp hnd
  cases h : lookupChild cs' c with
  | some n =>
    rw [lookupChild_eq_some_iff hnd]
    exact hperm.mem_iff.mpr ((lookupChild_eq_some_iff hnd').mp h)
  | none =>
    rw [lookupChild_eq_none_iff] at h ⊢
    intro hc
    exact h ((hperm.map Prod.fst).mem_iff.mp hc)

theorem lookupChild_map_val (g : TrieNode → TrieNode) (l : List (Char × TrieNode)) (c : Char) :
    lookupChild (l.map (fun p => (p.1, g p.2))) c = (lookupChild l c).map g := by
  induction l with
  | nil => rfl
  | cons p rest ih =>
    obtain ⟨c₀, n₀⟩ := p
    simp only [List.map_cons]
    rw [lookupChild_cons, lookupChild_cons]
    by_cases h0 : c₀ = c
    · rw [if_pos h0, if_pos h0]
      rfl
    · rw [if_neg h0, if_neg h0, ih]

theorem lookupChild_mem {cs : List (Char × TrieNode)} {c : Char} {ch : TrieNode}
    (h : lookupChild cs c = some ch) : (c, ch) ∈ cs := by
  rw [lookupChild, Option.map_eq_some'] at h
  obtain ⟨p, hp, hp2⟩ := h
  have hmem := List.mem_of_find?_eq_some hp
  have hbeq := List.find?_some hp
  obtain ⟨pc, pn⟩ := p
  have hc : pc = c := by simpa using hbeq
  simp only at hp2
  subst hc
  subst hp2
  exact hmem

theorem findAux_sortTrieAux (ff : ℕ) :
    ∀ (t : TrieNode) (fuel : ℕ) (w : List Char), height t ≤ fuel →
      WFChildren t.children →
      findAux ff (sortTrieAux fuel t) w = findAux ff t w := by
  induction ff with
  | zero =>
    intro t fuel w _ _
    cases w with
    | nil =>
      rw [findAux_nil, findAux_nil, (sortTrieAux_fields fuel t).2.1,
        (sortTrieAux_fields fuel t).2.2]
    | cons c w => rw [findAux_zero, findAux_zero]
  | succ ff ih =>
    intro t fuel w hh hwf
    cases w with
    | nil =>
      rw [findAux_nil, findAux_nil, (sortTrieAux_fields fuel t).2.1,
        (sortTrieAux_fields fuel t).2.2]
    | cons c w =>
      cases fuel with
      | zero => exact absurd hh (by have := height_pos t; omega)
      | succ fuel =>
        obtain ⟨lab, cs, term, inv⟩ := t
        rw [TrieNode.children_mk] at hwf
        have hlk2 : lookupChild (sortTrieAux (fuel + 1)
            (TrieNode.mk lab cs term inv)).children c =
            (lookupChild cs c).map (sortTrieAux fuel) := by
          rw [show (sortTrieAux (fuel + 1) (TrieNode.mk lab cs term inv)).children =
              (sortKeys cs).map (fun p => (p.1, sortTrieAux fuel p.2)) from rfl,
            lookupChild_map_val,
            lookupChild_perm (sortKeys_perm cs)
              (((sortKeys_perm cs).map Prod.fst).nodup_iff.mpr hwf.1) c]
        cases hlk : lookupChild cs c with
        | none =>
          have hlk2' : lookupChild (sortTrieAux (fuel + 1)
              (TrieNode.mk lab cs term inv)).children c = none := by
            rw [hlk2, hlk]
            rfl
          have hlkO : lookupChild (TrieNode.mk lab cs term inv).children c = none := by
            rw [TrieNode.children_mk]
            exact hlk
          rw [findAux_none w hlk2', findAux_none w hlkO]
        | some ch =>
          have hlk2' : lookupChild (sortTrieAux (fuel + 1)
              (TrieNode.mk lab cs term inv)).children c = some (sortTrieAux fuel ch) := by
            rw [hlk2, hlk]
            rfl
          have hlkO : lookupChild (TrieNode.mk lab cs term inv).children c = some ch := by
            rw [TrieNode.children_mk]
            exact hlk
          have hlab : (sortTrieAux fuel ch).label = ch.label := (sortTrieAux_fields fuel ch).1
          have hhch : height ch ≤ fuel := by
            have hle : height ch ≤ heightChildren cs :=
              height_le_of_mem (lookupChild_mem hlk)
            rw [height_mk] at hh
            omega
          have hwfch : WFChildren ch.children := (hwf.lookup_wf hlk).1.wfChildren
          by_cases h1 : find_mismatch_point (c :: w) ch.label = (c :: w).length
          · by_cases h2 : find_mismatch_point (c :: w) ch.label = ch.label.length
            · rw [findAux_exact w hlk2' (by rw [hlab]; exact h1) (by rw [hlab]; exact h2),
                findAux_exact w hlkO h1 h2,
                (sortTrieAux_fields fuel ch).2.1, (sortTrieAux_fields fuel ch).2.2]
            · rw [findAux_word_short w hlk2' (by rw [hlab]; exact h1)
                  (by rw [hlab]; exact h2),
                findAux_word_short w hlkO h1 h2]
          · by_cases h2 : find_mismatch_point (c :: w) ch.label = ch.label.length
            · cases hx : ch.label with
              | nil =>
                rw [findAux_descend_nil w hlk2' (by rw [hlab]; exact h1)
                    (by rw [hlab]; exact h2) (by rw [hlab]; exact hx),
                  findAux_descend_nil w hlkO h1 h2 hx]
              | cons x xs =>
                rw [findAux_descend w hlk2' (by rw [hlab]; exact h1)
                    (by rw [hlab]; exact h2) (by rw [hlab]; exact hx),
                  findAux_descend w hlkO h1 h2 hx, hlab]
                exact ih ch fuel _ hhch hwfch
            · rw [findAux_diverge w hlk2' (by rw [hlab]; exact h1) (by rw [hlab]; exact h2),
                findAux_diverge w hlkO h1 h2]

theorem find_sortTrie (t : TrieNode) (hwf : WFChildren t.children) (w : List Char) :
    find (sortTrie t) w = find t w := by
  rw [find, find, sortTrie]
  exact findAux_sortTrieAux w.length t (height t) w le_rfl hwf

/-- C5: for every list of `(term, doc_id, tf)` triples with non-empty
terms over the serializable alphabet and pairwise-distinct
`(term, doc_id)` pairs, in any insertion order: building the trie,
serializing it in pre-order and deserializing the lines succeeds and
yields a trie whose `lookup` returns, for every term, the same list
(hence the same multiset) of `(doc_id, tf)` entries as the original
trie. -/
theorem C5_serialize_roundtrip (ts : List (List Char × ℕ × ℕ))
    (hne : ∀ e ∈ ts, e.1 ≠ [])
    (halpha : ∀ e ∈ ts, ∀ c ∈ e.1, c ∈ serChars)
    (hdist : (ts.map (fun e => (e.1, e.2.1))).Nodup) :
    ∃ T' : TrieNode, loadLines (serialize (buildTrie ts)) = some T' ∧
      ∀ w : List Char, find T' w = find (buildTrie ts) w := by
  refine ⟨sortTrie (buildTrie ts), ?_,
    fun w => find_sortTrie _ (buildTrie_WFChildren ts) w⟩
  refine loadLines_serialize _ ?_ (buildTrie_WFChildren ts) ?_
  · rw [buildTrie, (foldl_insert_fields ts emptyTrie).1]
    rfl
  · exact buildTrie_serLabels ts (fun e he => serWord_iff.mpr (halpha e he))

/-- Witness for C5 on the spec's concrete scenario (`carro` then
`carga`, exercising the split), discharging the hypotheses at a
concrete input. -/
theorem C5_serialize_roundtrip_witness :
    ((∀ e ∈ [("carro".data, 1, 3), ("carga".data, 2, 1)], e.1 ≠ ([] : List Char)) ∧
     (∀ e ∈ [("carro".data, 1, 3), ("carga".data, 2, 1)], ∀ c ∈ e.1, c ∈ serChars) ∧
     ([("carro".data, 1, 3), ("carga".data, 2, 1)].map (fun e => (e.1, e.2.1))).Nodup) ∧
    (∃ T' : TrieNode,
      loadLines (serialize (buildTrie [("carro".data, 1, 3), ("carga".data, 2, 1)])) =
        some T' ∧
      ∀ w : List Char,
        find T' w = find (buildTrie [("carro".data, 1, 3), ("carga".data, 2, 1)]) w) :=
  ⟨⟨by decide, by decide, by decide⟩,
    C5_serialize_roundtrip [("carro".data, 1, 3), ("carga".data, 2, 1)]
      (by decide) (by decide) (by decide)⟩

end CompactTrie
